import Mathlib

/-!
# Verification of the concurrent web crawler core

A shallow embedding, in Lean 4, of the crawler implemented in
`src/crawler.rs`, `src/robots.rs` and `src/page.rs`, together with proofs
and refutations of the specified properties.

Conventions:
* Rust `String`/`&str` values are Lean `String`s; all string operations are
  defined at the character-list level (`String.data`) so that every
  definition evaluates inside the kernel.
* The `url` crate (`Url::parse`, `Url::join`, serialization) is external
  library code; it is modelled here for well-formed `http(s)` URLs without
  userinfo, port, dot-segments or percent-encoding concerns, which is the
  fragment exercised by the properties under study.
* Durations (`std::time::Duration`, `f64` seconds) are modelled as `ℚ`
  (seconds); machine-float parsing is modelled on plain decimal literals.
* The concurrent crawl (`Crawler::crawl`) is modelled as a small-step
  transition system: each mutex-guarded critical section of the Rust code
  is one atomic step, and steps of the dispatch loop and of the worker
  tasks interleave arbitrarily.
-/

/-! ## Character-level string helpers (models of Rust `str` methods) -/

/-- Model of Rust `char::is_whitespace` restricted to the ASCII whitespace
characters that occur in `robots.txt` files. -/
def isWsChar (c : Char) : Bool :=
  c == ' ' || c == '\t' || c == '\n' || c == '\r'

/-- Model of Rust `str::trim`: drop whitespace from both ends. -/
def trimChars (cs : List Char) : List Char :=
  (cs.dropWhile isWsChar).reverse.dropWhile isWsChar |>.reverse

/-- The ASCII case-mapping table. -/
def upperLower : List (Char × Char) :=
  [('A', 'a'), ('B', 'b'), ('C', 'c'), ('D', 'd'), ('E', 'e'), ('F', 'f'),
   ('G', 'g'), ('H', 'h'), ('I', 'i'), ('J', 'j'), ('K', 'k'), ('L', 'l'),
   ('M', 'm'), ('N', 'n'), ('O', 'o'), ('P', 'p'), ('Q', 'q'), ('R', 'r'),
   ('S', 's'), ('T', 't'), ('U', 'u'), ('V', 'v'), ('W', 'w'), ('X', 'x'),
   ('Y', 'y'), ('Z', 'z')]

/-- ASCII lower-casing of one character (the `url` crate lower-cases hosts
and schemes; hosts are ASCII here). -/
def lowerChar (c : Char) : Char :=
  match upperLower.find? (fun e => e.1 == c) with
  | some e => e.2
  | none => c

/-- Split a character list at the first character satisfying `p`; returns
the characters before it and the remainder (still starting with the
matching character, when there is one). -/
def takeUntil (p : Char → Bool) : List Char → List Char × List Char
  | [] => ([], [])
  | c :: cs =>
    if p c then ([], c :: cs)
    else
      let r := takeUntil p cs
      (c :: r.1, r.2)

/-- Rust `str::trim` on `String`. -/
def strTrim (s : String) : String := ⟨trimChars s.data⟩

/-- Rust `str::to_lowercase` (ASCII fragment) on `String`. -/
def strLower (s : String) : String := ⟨s.data.map lowerChar⟩

/-- Rust `str::starts_with(&str)`: byte-prefix test; on well-formed UTF-8
this coincides with the character-prefix test used here. -/
def strStartsWith (s pre : String) : Bool := pre.data.isPrefixOf s.data

/-- Rust `str::contains(&str)`: substring test, as a character-infix test. -/
def strContains (s sub : String) : Bool :=
  (s.data.inits.map (List.isSuffixOf sub.data)).any id

/-- Rust `str::len()`: length in UTF-8 bytes. -/
def byteLen (s : String) : Nat := s.data.foldl (fun n c => n + c.utf8Size) 0

/-- Rust `String::pop()` (drop the last character). -/
def strPop (s : String) : String := ⟨s.data.dropLast⟩

/-- Rust `str::ends_with('/')`. -/
def lastIsSlash (s : String) : Bool := s.data.getLast? == some '/'

/-- Rust `str::split_once(':')`: split at the first `:`. -/
def splitOnceColon (s : String) : Option (String × String) :=
  let r := takeUntil (· == ':') s.data
  match r.2 with
  | _ :: rest => some (⟨r.1⟩, ⟨rest⟩)
  | [] => none

/-- Rust `str::lines()` (modulo a possible final empty line, which every
consumer in this development skips): split on `'\n'` and strip one
trailing `'\r'` per line. -/
def rustLines (s : String) : List String :=
  (splitOnCharAux s.data).map fun l => ⟨stripCR l⟩
where
  /-- split a character list on `'\n'` -/
  splitOnCharAux : List Char → List (List Char)
    | [] => [[]]
    | c :: cs =>
      if c == '\n' then [] :: splitOnCharAux cs
      else
        match splitOnCharAux cs with
        | [] => [[c]]
        | l :: ls => (c :: l) :: ls
  /-- strip one trailing `'\r'` -/
  stripCR (l : List Char) : List Char :=
    if l.getLast? == some '\r' then l.dropLast else l

/-! ## URL model

Model of the `url` crate surface used by the crawler: parsing, joining,
serialization, plus the crawler's own `normalize_url` and
`extract_domain` (from `src/crawler.rs`). -/

/-- A parsed http(s) URL (model of `url::Url` restricted to the http(s)
fragment used by the crawler: no userinfo, no port). -/
structure Url where
  scheme : String
  host : String
  path : String
  query : Option String
  fragment : Option String
  deriving Repr, DecidableEq

/-- Model of `url::Url::to_string()`: `scheme://host path [?query] [#fragment]`. -/
def serializeUrl (u : Url) : String :=
  u.scheme ++ "://" ++ u.host ++ u.path
    ++ (match u.query with | some q => "?" ++ q | none => "")
    ++ (match u.fragment with | some f => "#" ++ f | none => "")

/-- Worker for `parseUrl`: everything after `scheme://host path`. -/
def parseQF : List Char → Option String × Option String
  | '?' :: rest =>
    let r := takeUntil (· == '#') rest
    (some ⟨r.1⟩, match r.2 with | _ :: f => some ⟨f⟩ | [] => none)
  | '#' :: rest => (none, some ⟨rest⟩)
  | _ => (none, none)

/-- Model of `url::Url::parse` on http(s) URLs: splits
`scheme://authority path ?query #fragment`, lower-cases scheme and host,
turns an empty path into `/`, and fails on non-http(s) schemes, an empty
authority, or userinfo/port in the authority. -/
def parseUrl (s : String) : Option Url :=
  let r := takeUntil (· == ':') s.data
  match r.2 with
  | ':' :: '/' :: '/' :: rest2 =>
    let scheme := r.1.map lowerChar
    if scheme = "http".data ∨ scheme = "https".data then
      let ra := takeUntil (fun c => c == '/' || c == '?' || c == '#') rest2
      if ra.1 = [] ∨ ra.1.any (fun c => c == '@' || c == ':') then none
      else
        let host : String := ⟨ra.1.map lowerChar⟩
        match ra.2 with
        | [] => some ⟨⟨scheme⟩, host, "/", none, none⟩
        | c :: _ =>
          if c == '/' then
            let rp := takeUntil (fun c => c == '?' || c == '#') ra.2
            let qf := parseQF rp.2
            some ⟨⟨scheme⟩, host, ⟨rp.1⟩, qf.1, qf.2⟩
          else
            let qf := parseQF ra.2
            some ⟨⟨scheme⟩, host, "/", qf.1, qf.2⟩
    else none
  | _ => none

/-- Embedding of `Crawler::normalize_url` (src/crawler.rs:490-506): drop the fragment,
serialize, and pop one trailing `/` when the serialized form ends with
one. -/
def normalize_url (u : Url) : String :=
  let s := serializeUrl { u with fragment := none }
  if lastIsSlash s then strPop s else s

/-- Embedding of `Crawler::extract_domain` (src/crawler.rs:485-488):
`Url::parse(url)?.host_str().unwrap_or("")`. `none` models the `Err`
case of the Rust `Result`. -/
def extract_domain (url : String) : Option String :=
  (parseUrl url).map Url.host

/-- The origin key used by the robots cache (src/robots.rs:37-41):
`format!("{}://{}", scheme, host)`. -/
def originOf (url : String) : Option String :=
  (parseUrl url).map fun u => u.scheme ++ "://" ++ u.host

/-- Split a reference string into path/query/fragment parts (helper for
`joinUrl`). -/
def splitRef (cs : List Char) : String × Option String × Option String :=
  let rp := takeUntil (fun c => c == '?' || c == '#') cs
  let qf := parseQF rp.2
  (⟨rp.1⟩, qf.1, qf.2)

/-- Model of `url::Url::join(base, href)` for the reference forms this
development exercises: absolute URLs, protocol-relative `//…`
references, and rooted `/…` references. Other relative forms are not
modelled (`none`). -/
def joinUrl (base : Url) (href : String) : Option Url :=
  match parseUrl href with
  | some u => some u
  | none =>
    match href.data with
    | '/' :: '/' :: _ => parseUrl (base.scheme ++ ":" ++ href)
    | '/' :: _ =>
      let r := splitRef href.data
      some ⟨base.scheme, base.host, r.1, r.2.1, r.2.2⟩
    | _ => none

/-! ## Robots model (`src/robots.rs`) -/

/-- Embedding of `RobotsData` (src/robots.rs:18-23); the crawl delay is kept in
seconds, as `ℚ` in place of `f64`. -/
structure RobotsData where
  allow_patterns : List String
  disallow_patterns : List String
  crawl_delay : Option ℚ
  deriving Repr, DecidableEq

/-- Digits-only parse (helper for the decimal model of `f64` parsing). -/
def parseDigits : List Char → Option Nat
  | [] => none
  | cs =>
    if cs.all Char.isDigit then
      some (cs.foldl (fun n c => 10 * n + (c.toNat - '0'.toNat)) 0)
    else none

/-- Model of `str::parse::<f64>()` restricted to plain decimal literals
`digits[.digits]` (the forms a `Crawl-delay:` line realistically
carries); other inputs are unmodelled and map to `none`. -/
def parseF64 (s : String) : Option ℚ :=
  let r := takeUntil (· == '.') s.data
  match r.2 with
  | [] => (parseDigits r.1).map (fun n => (n : ℚ))
  | _ :: frac =>
    match parseDigits r.1, parseDigits frac with
    | some i, some f => some ((i : ℚ) + (f : ℚ) / ((10 : ℚ) ^ frac.length))
    | _, _ => none

/-- Parser accumulator: the `current_agent` / pattern vectors of
`fetch_and_parse_robots` (src/robots.rs:119-124). -/
structure RAcc where
  agent : String
  allow : List String
  disallow : List String
  delay : Option ℚ

/-- One iteration of the `for line in content.lines()` loop of
`fetch_and_parse_robots` (src/robots.rs:125-163). -/
def robotsLineStep (user_agent : String) (acc : RAcc) (line : String) : RAcc :=
  let l := strTrim line
  if l.data = [] ∨ l.data.head? = some '#' then acc
  else
    match splitOnceColon l with
    | none => acc
    | some (k, v) =>
      let key := strLower (strTrim k)
      let val := strTrim v
      if key = "user-agent" then { acc with agent := val }
      else if key = "allow" then
        if acc.agent = "*" ∨ acc.agent = user_agent then
          { acc with allow := acc.allow ++ [val] }
        else acc
      else if key = "disallow" then
        if (acc.agent = "*" ∨ acc.agent = user_agent) ∧ val ≠ "" then
          { acc with disallow := acc.disallow ++ [val] }
        else acc
      else if key = "crawl-delay" then
        if acc.agent = "*" ∨ acc.agent = user_agent then
          match parseF64 val with
          | some d => { acc with delay := some d }
          | none => acc
        else acc
      else acc

/-- The parsing part of `fetch_and_parse_robots` (src/robots.rs:119-169),
applied to the fetched `robots.txt` text. -/
def parseRobotsTxt (content user_agent : String) : RobotsData :=
  let acc := (rustLines content).foldl (robotsLineStep user_agent) ⟨"", [], [], none⟩
  ⟨acc.allow, acc.disallow, acc.delay⟩

/-- Embedding of `RobotsChecker::check_path_allowed` (src/robots.rs:77-93): scan the
disallow patterns in order; at the first one that prefixes the path,
allow iff some strictly byte-longer allow pattern also prefixes it. -/
def check_path_allowed (rd : RobotsData) (path : String) : Bool :=
  match rd.disallow_patterns.find? (fun pat => strStartsWith path pat) with
  | some pat =>
    rd.allow_patterns.any fun ap =>
      strStartsWith path ap && Nat.blt (byteLen pat) (byteLen ap)
  | none => true

/-- The robots cache (`HashMap<String, RobotsData>` behind the `RwLock`,
src/robots.rs:15), as an association list keyed by origin. -/
def RobotsCache := List (String × RobotsData)

/-- Model of `HashMap::get` on the association-list representation. -/
def alookup {α : Type} (m : List (String × α)) (k : String) : Option α :=
  (m.find? (fun e => e.1 == k)).map Prod.snd

/-- Embedding of `RobotsChecker::get_crawl_delay` (src/robots.rs:173-183): look the
key up in the cache and return its `crawl_delay`, if any. The user agent
is unused by the source. -/
def get_crawl_delay (cache : List (String × RobotsData)) (domain : String)
    (_user_agent : String) : Option ℚ :=
  (alookup cache domain).bind RobotsData.crawl_delay

/-- The politeness-sleep computation of `process_page`
(src/crawler.rs:384-408): on the successful-HTML path, look up the crawl
delay for `extract_domain(url)` and sleep for the larger of it and the
configured delay; when `extract_domain` fails, no sleep happens (`none`). -/
def sleep_duration (configured_delay : ℚ) (cache : List (String × RobotsData))
    (user_agent url : String) : Option ℚ :=
  match extract_domain url with
  | some host =>
    match get_crawl_delay cache host user_agent with
    | some d => some (if d > configured_delay then d else configured_delay)
    | none => some configured_delay
  | none => none

/-! ## Page records (`src/page.rs`) -/

/-- Embedding of `Page` (src/page.rs:5-15). `depth` is `ℕ` for the Rust `u32` (depths
only ever grow by 1 from 0 here, far from overflow); `crawled` models
whether `crawled_at` has been set (the wall-clock value itself is not
modelled). -/
structure Page where
  url : String
  links : List String
  depth : Nat
  title : Option String
  content_type : Option String
  status_code : Option Nat
  size : Option Nat
  crawled : Bool
  deriving Repr, DecidableEq

/-- Embedding of `Page::new` (src/page.rs:18-29). -/
def Page.new (url : String) (depth : Nat) : Page :=
  ⟨url, [], depth, none, none, none, none, false⟩

/-- Embedding of `Page::with_links` (src/page.rs:31-34). -/
def Page.with_links (p : Page) (links : List String) : Page := { p with links := links }

/-- Embedding of `Page::with_title` (src/page.rs:36-39). -/
def Page.with_title (p : Page) (t : String) : Page := { p with title := some t }

/-- Embedding of `Page::with_content_type` (src/page.rs:41-44). -/
def Page.with_content_type (p : Page) (ct : String) : Page := { p with content_type := some ct }

/-- Embedding of `Page::with_status_code` (src/page.rs:46-49). -/
def Page.with_status_code (p : Page) (sc : Nat) : Page := { p with status_code := some sc }

/-- Embedding of `Page::with_size` (src/page.rs:51-54). -/
def Page.with_size (p : Page) (sz : Nat) : Page := { p with size := some sz }

/-- Embedding of `Page::mark_crawled` (src/page.rs:56-59). -/
def Page.mark_crawled (p : Page) : Page := { p with crawled := true }

/-! ## Crawler configuration (`src/config.rs` fields consumed by the core) -/

/-- The `CrawlerConfig` fields the crawl engine reads. Timeouts and
`concurrent_tasks` bound wall-clock time and parallelism, which the state
model leaves unconstrained (any interleaving is allowed), so they carry
no information here and are omitted. -/
structure CrawlerConfig where
  max_depth : Nat
  respect_robots_txt : Bool
  allowed_domains : List String
  excluded_paths : List String
  max_urls_per_domain : Option Nat
  max_total_urls : Option Nat
  delay_between_requests : ℚ
  user_agent : String

/-! ## The environment: HTTP world, HTML parser, robots verdicts

`process_page` interacts with the network (reqwest), the HTML parser
(scraper) and the robots checker. A crawl run is modelled against a fixed
environment giving each URL a fixed response, each body a fixed href list
and title, and each URL a fixed robots verdict. -/

/-- The external world a crawl runs against.

* `robotsAllowed u`: the value of `Crawler::should_crawl_url(u)`
  (src/crawler.rs:466-483) — `false` only when the robots checker
  explicitly disallows the URL; fetch errors there yield `true`.
* `respond u`: `none` models a transport error of `client.get(u)`;
  `some (status, content_type, body)` a received response.
* `hrefs body` / `htmlTitle body`: the `a[href]` attribute values in
  document order and the first `<title>` text, as the `scraper` crate
  would produce them for `body`. -/
structure Env where
  robotsAllowed : String → Bool
  respond : String → Option (Nat × String × String)
  hrefs : String → List String
  htmlTitle : String → Option String

/-- Model of `StatusCode::is_success` (reqwest): 2xx. -/
def statusIsSuccess (code : Nat) : Bool := decide (200 ≤ code ∧ code ≤ 299)

/-- Embedding of `Crawler::extract_links_and_title` (src/crawler.rs:427-464): parse the
base URL (failure propagates as `none`, the `?` on `Url::parse`), resolve
each href against it, keep http(s) results, and normalize them;
the title is the first `<title>` text. -/
def extract_links_and_title (env : Env) (html_text base_url_str : String) :
    Option (List String × Option String) :=
  match parseUrl base_url_str with
  | none => none
  | some base =>
    some
      ((env.hrefs html_text).filterMap fun href =>
        match joinUrl base href with
        | some abs =>
          if abs.scheme = "http" ∨ abs.scheme = "https" then some (normalize_url abs)
          else none
        | none => none,
      env.htmlTitle html_text)

/-- Embedding of `Crawler::process_page` (src/crawler.rs:321-423) minus the politeness
sleep (time is not part of the state): robots check, fetch, non-2xx and
non-HTML short-circuits, link/title extraction, page assembly. `none`
models the `Err` return (transport error or base-URL parse error). -/
def process_page (cfg : CrawlerConfig) (env : Env) (page : Page) :
    Option (Page × List String) :=
  if cfg.respect_robots_txt ∧ env.robotsAllowed page.url = false then
    some (((Page.new page.url page.depth).with_status_code 403).mark_crawled, [])
  else
    match env.respond page.url with
    | none => none
    | some (status_code, content_type, body) =>
      if statusIsSuccess status_code = false then
        some (((Page.new page.url page.depth).with_status_code status_code).mark_crawled, [])
      else if strContains content_type "text/html" = false then
        some ((((Page.new page.url page.depth).with_status_code status_code).with_content_type
          content_type).mark_crawled, [])
      else
        match extract_links_and_title env body page.url with
        | none => none
        | some (links, title) =>
          let pp := (((((Page.new page.url page.depth).with_links links).with_status_code
            status_code).with_content_type content_type).with_size (byteLen body)).mark_crawled
          some (match title with | some t => pp.with_title t | none => pp, links)

/-! ## The crawl engine as a transition system (`Crawler::crawl`) -/

/-- Embedding of `CrawlStats` (src/crawler.rs:20-27) restricted to the counter fields;
the timestamp/duration fields hold wall-clock values outside the model. -/
structure CrawlStats where
  success_count : Nat
  error_count : Nat
  avg_page_size : Nat
  deriving Repr, DecidableEq

/-- The position of a worker task inside its body (src/crawler.rs:164-241):
`running` = before/inside `process_page`; `graphing ls` = page pushed,
graph insert pending; `bumping ls` = graph inserted, success bump
pending; `queueing ls` = iterating over the remaining links `ls`. -/
inductive WPhase
  | running
  | graphing (links : List String)
  | bumping (links : List String)
  | queueing (links : List String)
  deriving Repr, DecidableEq

/-- A live worker task: the page it was spawned for and its phase. -/
structure Worker where
  page : Page
  k : WPhase
  deriving Repr, DecidableEq

/-- The shared state of `Crawler::crawl`: the visited set, the channel
contents (frontier), the live workers, and the mutex-guarded stores.
`halted` records that the dispatch loop has exited (depth/total-limit
`break` or the `crawl_timeout` arm); workers keep stepping afterwards,
matching the drain/abandon behavior (src/crawler.rs:279-293). -/
structure CrawlState where
  visited : List String
  frontier : List Page
  workers : List Worker
  pages : List Page
  graph : List (String × List String)
  stats : CrawlStats
  domainCounters : String → Nat
  halted : Bool

/-- The state after the prologue of `crawl` (src/crawler.rs:92-116): seed
marked visited, seed page sent, all stores empty. -/
def initState (start : String) : CrawlState :=
  ⟨[start], [Page.new start 0], [], [], [], ⟨0, 0, 0⟩, fun _ => 0, false⟩

/-- The domain charged to `max_urls_per_domain`
(src/crawler.rs:137): `extract_domain(url).unwrap_or_default()`. -/
def pageDomain (p : Page) : String := (extract_domain p.url).getD ""

/-- The per-domain admission test (src/crawler.rs:136-145): passes when no
limit is configured or the counter is below it. -/
def domainOk (cfg : CrawlerConfig) (s : CrawlState) (p : Page) : Prop :=
  match cfg.max_urls_per_domain with
  | none => True
  | some m => s.domainCounters (pageDomain p) < m

/-- The counter bump performed with the per-domain test (only when a
limit is configured — the whole block is inside the `if let`). -/
def bumpDomain (cfg : CrawlerConfig) (dc : String → Nat) (p : Page) : String → Nat :=
  match cfg.max_urls_per_domain with
  | none => dc
  | some _ => fun d => if d = pageDomain p then dc d + 1 else dc d

/-- The total-URL admission test (src/crawler.rs:147-154): passes when no
limit is configured or the visited set is below it. -/
def totalOk (cfg : CrawlerConfig) (s : CrawlState) : Prop :=
  match cfg.max_total_urls with
  | none => True
  | some m => s.visited.length < m

/-- The allowed-domains filter on a discovered link
(src/crawler.rs:207-212): vacuously true when the list is empty,
otherwise a substring test of each allowed domain against the link's
domain. -/
def allowedDomainB (cfg : CrawlerConfig) (link : String) : Bool :=
  if cfg.allowed_domains.isEmpty then true
  else
    cfg.allowed_domains.any fun d => strContains ((extract_domain link).getD "") d

/-- The excluded-paths filter on a discovered link
(src/crawler.rs:214-218): a substring test of each excluded path against
the whole link. -/
def excludedPathB (cfg : CrawlerConfig) (link : String) : Bool :=
  if cfg.excluded_paths.isEmpty then false
  else cfg.excluded_paths.any fun pth => strContains link pth

/-- One atomic step of the crawl: either the dispatch loop handles the
head of the frontier (src/crawler.rs:122-277) or one worker executes its
next critical section (src/crawler.rs:164-241). Worker steps remain
enabled after `halted` (the loop's exit does not stop spawned tasks). -/
inductive Step (cfg : CrawlerConfig) (env : Env) : CrawlState → CrawlState → Prop
  /-- the `crawl_timeout` select arm fires (src/crawler.rs:272-275) -/
  | halt_timeout (s : CrawlState) (hh : s.halted = false) :
      Step cfg env s { s with halted := true }
  /-- a dequeued page at `depth ≥ max_depth` is discarded
  (src/crawler.rs:130-133) -/
  | discard_depth (s : CrawlState) (p : Page) (fr' : List Page)
      (hh : s.halted = false) (hf : s.frontier = p :: fr')
      (hd : cfg.max_depth ≤ p.depth) :
      Step cfg env s { s with frontier := fr' }
  /-- a dequeued page over the per-domain limit is discarded
  (src/crawler.rs:136-143) -/
  | discard_domain (s : CrawlState) (p : Page) (fr' : List Page) (m : Nat)
      (hh : s.halted = false) (hf : s.frontier = p :: fr')
      (hd : p.depth < cfg.max_depth) (hm : cfg.max_urls_per_domain = some m)
      (hc : m ≤ s.domainCounters (pageDomain p)) :
      Step cfg env s { s with frontier := fr' }
  /-- the total-URL limit fires and the dispatch loop breaks
  (src/crawler.rs:147-154) -/
  | halt_total (s : CrawlState) (p : Page) (fr' : List Page) (m : Nat)
      (hh : s.halted = false) (hf : s.frontier = p :: fr')
      (hd : p.depth < cfg.max_depth) (hdom : domainOk cfg s p)
      (hm : cfg.max_total_urls = some m) (hc : m ≤ s.visited.length) :
      Step cfg env s { s with
        frontier := fr',
        domainCounters := bumpDomain cfg s.domainCounters p,
        halted := true }
  /-- a dequeued page passes admission and a worker task is spawned
  (src/crawler.rs:156-243) -/
  | spawn (s : CrawlState) (p : Page) (fr' : List Page)
      (hh : s.halted = false) (hf : s.frontier = p :: fr')
      (hd : p.depth < cfg.max_depth) (hdom : domainOk cfg s p) (ht : totalOk cfg s) :
      Step cfg env s { s with
        frontier := fr',
        domainCounters := bumpDomain cfg s.domainCounters p,
        workers := s.workers ++ [⟨p, .running⟩] }
  /-- the case where `process_page` returns `Err`: bump the error counter and finish
  (src/crawler.rs:231-239) -/
  | worker_error (s : CrawlState) (ws₁ ws₂ : List Worker) (pg : Page)
      (hw : s.workers = ws₁ ++ ⟨pg, .running⟩ :: ws₂)
      (hp : process_page cfg env pg = none) :
      Step cfg env s { s with
        workers := ws₁ ++ ws₂,
        stats := { s.stats with error_count := s.stats.error_count + 1 } }
  /-- the case where `process_page` returns `Ok`: push the processed page
  (src/crawler.rs:173-178) -/
  | worker_push (s : CrawlState) (ws₁ ws₂ : List Worker) (pg pp : Page)
      (links : List String)
      (hw : s.workers = ws₁ ++ ⟨pg, .running⟩ :: ws₂)
      (hp : process_page cfg env pg = some (pp, links)) :
      Step cfg env s { s with
        workers := ws₁ ++ ⟨pg, .graphing links⟩ :: ws₂,
        pages := s.pages ++ [pp] }
  /-- insert the graph entry `url → links` (src/crawler.rs:180-184) -/
  | worker_graph (s : CrawlState) (ws₁ ws₂ : List Worker) (pg : Page)
      (links : List String)
      (hw : s.workers = ws₁ ++ ⟨pg, .graphing links⟩ :: ws₂) :
      Step cfg env s { s with
        workers := ws₁ ++ ⟨pg, .bumping links⟩ :: ws₂,
        graph := (pg.url, links) :: s.graph }
  /-- bump the success counter (src/crawler.rs:186-190) -/
  | worker_bump (s : CrawlState) (ws₁ ws₂ : List Worker) (pg : Page)
      (links : List String)
      (hw : s.workers = ws₁ ++ ⟨pg, .bumping links⟩ :: ws₂) :
      Step cfg env s { s with
        workers := ws₁ ++ ⟨pg, .queueing links⟩ :: ws₂,
        stats := { s.stats with success_count := s.stats.success_count + 1 } }
  /-- a link already in the visited set is skipped (src/crawler.rs:195-204) -/
  | link_seen (s : CrawlState) (ws₁ ws₂ : List Worker) (pg : Page)
      (l : String) (ls : List String)
      (hw : s.workers = ws₁ ++ ⟨pg, .queueing (l :: ls)⟩ :: ws₂)
      (hv : l ∈ s.visited) :
      Step cfg env s { s with workers := ws₁ ++ ⟨pg, .queueing ls⟩ :: ws₂ }
  /-- a fresh link passing both filters is marked visited and sent to the
  frontier at `depth + 1` (src/crawler.rs:195-228) -/
  | link_new_queued (s : CrawlState) (ws₁ ws₂ : List Worker) (pg : Page)
      (l : String) (ls : List String)
      (hw : s.workers = ws₁ ++ ⟨pg, .queueing (l :: ls)⟩ :: ws₂)
      (hv : l ∉ s.visited)
      (ha : allowedDomainB cfg l = true) (he : excludedPathB cfg l = false) :
      Step cfg env s { s with
        visited := l :: s.visited,
        workers := ws₁ ++ ⟨pg, .queueing ls⟩ :: ws₂,
        frontier := s.frontier ++ [Page.new l (pg.depth + 1)] }
  /-- a fresh link failing a filter is still marked visited but not sent
  (src/crawler.rs:195-228) -/
  | link_new_filtered (s : CrawlState) (ws₁ ws₂ : List Worker) (pg : Page)
      (l : String) (ls : List String)
      (hw : s.workers = ws₁ ++ ⟨pg, .queueing (l :: ls)⟩ :: ws₂)
      (hv : l ∉ s.visited)
      (hfil : ¬(allowedDomainB cfg l = true ∧ excludedPathB cfg l = false)) :
      Step cfg env s { s with
        visited := l :: s.visited,
        workers := ws₁ ++ ⟨pg, .queueing ls⟩ :: ws₂ }
  /-- all links handled: the task finishes and releases its permit
  (src/crawler.rs:241-246) -/
  | worker_done (s : CrawlState) (ws₁ ws₂ : List Worker) (pg : Page)
      (hw : s.workers = ws₁ ++ ⟨pg, .queueing []⟩ :: ws₂) :
      Step cfg env s { s with workers := ws₁ ++ ws₂ }

/-- The states a crawl of `start` can be in, for any interleaving. -/
inductive Reachable (cfg : CrawlerConfig) (env : Env) (start : String) :
    CrawlState → Prop
  | init : Reachable cfg env start (initState start)
  | step {s s' : CrawlState} (h : Reachable cfg env start s)
      (hs : Step cfg env s s') : Reachable cfg env start s'

/-! ## The crawl invariant -/

/-- The URL a worker still "owns" exclusively: its page's URL while the
page has not yet been pushed to the store (phase `running`). -/
def wActive (w : Worker) : Option String :=
  match w.k with
  | .running => some w.page.url
  | _ => none

/-- All URLs currently charged to the system: queued in the frontier,
held by a not-yet-committed worker, or committed to the page store.
Distinctness of this list is the at-most-once dispatch invariant. -/
def urlsOf (s : CrawlState) : List String :=
  s.frontier.map Page.url ++ s.workers.filterMap wActive ++ s.pages.map Page.url

/-- The inductive invariant of the crawl loop. -/
structure CrawlInv (cfg : CrawlerConfig) (env : Env) (s : CrawlState) : Prop where
  nodupUrls : (urlsOf s).Nodup
  urlsVisited : ∀ u ∈ urlsOf s, u ∈ s.visited
  workerDepth : ∀ w ∈ s.workers, w.page.depth < cfg.max_depth
  pageDepth : ∀ p ∈ s.pages, p.depth < cfg.max_depth
  avgZero : s.stats.avg_page_size = 0
  phaseLinks : ∀ w ∈ s.workers, ∀ ls, (w.k = .graphing ls ∨ w.k = .bumping ls) →
    ∃ pp, process_page cfg env w.page = some (pp, ls)
  committedPhase : ∀ w ∈ s.workers, w.k ≠ .running →
    ∃ p ∈ s.pages, p.url = w.page.url
  graphSound : ∀ e ∈ s.graph, (∃ p ∈ s.pages, p.url = e.1) ∧
    ∃ pg pp, pg.url = e.1 ∧ process_page cfg env pg = some (pp, e.2)

/-! ## Concrete crawl scenarios -/

/-- A default-like configuration: `max_depth = 2`, robots respected, no
domain/path filters, no URL limits. -/
def cfgT : CrawlerConfig :=
  ⟨2, true, [], [], none, none, 1, "RustCrawler/1.0 (https://example.com/bot)"⟩

/-- World for the C3 counterexample: the seed `http://s/` answers 404;
robots allows everything. -/
def envC3 : Env :=
  ⟨fun _ => true,
   fun u => if u = "http://s/" then some (404, "", "") else none,
   fun _ => [],
   fun _ => none⟩

/-- The crawl state of the `http://s/` scenario right after the worker's
graph insert: the 404 page is committed and its graph entry exists, the
success bump is still pending. -/
def sC3 : CrawlState :=
  ⟨["http://s/"], [],
   [⟨Page.new "http://s/" 0, .bumping []⟩],
   [((Page.new "http://s/" 0).with_status_code 404).mark_crawled],
   [("http://s/", [])], ⟨0, 0, 0⟩, fun _ => 0, false⟩

/-- World for scenario S1: `http://t/` serves an HTML page titled `T`
with one link `/a`; `http://t/a` answers 404; robots allows everything. -/
def envS1 : Env :=
  ⟨fun _ => true,
   fun u =>
     if u = "http://t/" then some (200, "text/html", "B1")
     else if u = "http://t/a" then some (404, "", "") else none,
   fun b => if b = "B1" then ["/a"] else [],
   fun b => if b = "B1" then some "T" else none⟩

/-- The query part of a serialized URL, at the character level. -/
def qdata : Option String → List Char
  | some q => '?' :: q.data
  | none => []

/-- Well-formedness of a `Url` value: exactly the shape `parseUrl`
produces (http(s) scheme, non-empty lower-case host free of delimiters,
rooted path, delimiter-free query). -/
structure UrlWF (u : Url) : Prop where
  scheme_ok : u.scheme = "http" ∨ u.scheme = "https"
  host_ne : u.host.data ≠ []
  host_lower : u.host.data.map lowerChar = u.host.data
  host_chars : ∀ c ∈ u.host.data, c ≠ '/' ∧ c ≠ '?' ∧ c ≠ '#' ∧ c ≠ '@' ∧ c ≠ ':'
  path_start : ∃ rest, u.path.data = '/' :: rest
  path_chars : ∀ c ∈ u.path.data, c ≠ '?' ∧ c ≠ '#'
  query_chars : ∀ q, u.query = some q → ∀ c ∈ q.data, c ≠ '#'

/-- One full re-normalization pass over a URL string: parse it and
normalize the result (the composition a caller would apply to an
already-normalized URL). -/
def renormalize (s : String) : Option String := (parseUrl s).map normalize_url

/-! ## Robots parsing: group analysis (C6) -/

/-- The key/value of a robots.txt line, after the same trimming,
comment-skipping and lower-casing the parser applies. -/
def parsedLine (line : String) : Option (String × String) :=
  let l := strTrim line
  if l.data = [] ∨ l.data.head? = some '#' then none
  else (splitOnceColon l).map fun kv => (strLower (strTrim kv.1), strTrim kv.2)

/-- Every directive of a line list, annotated with the agent token in
force at that line (`cur` before the first `User-agent:` line). -/
def annotDirs (cur : String) : List String → List (String × String × String)
  | [] => []
  | line :: rest =>
    match parsedLine line with
    | none => annotDirs cur rest
    | some (k, v) =>
      if k = "user-agent" then annotDirs v rest
      else (cur, k, v) :: annotDirs cur rest

/-- The key/value pairs under an agent token matching the user agent
(`*` or the exact agent). -/
def matchedOf (ua : String) (ads : List (String × String × String)) :
    List (String × String) :=
  (ads.filter fun d => d.1 == "*" || d.1 == ua).map fun d => d.2

/-- The `Allow:` values of a directive list. -/
def dirAllow (ds : List (String × String)) : List String :=
  ds.filterMap fun d => if d.1 = "allow" then some d.2 else none

/-- Non-empty `Disallow:` values of a directive list. -/
def dirDisallow (ds : List (String × String)) : List String :=
  ds.filterMap fun d => if d.1 = "disallow" ∧ d.2 ≠ "" then some d.2 else none

/-- Parseable `Crawl-delay:` values of a directive list. -/
def dirDelays (ds : List (String × String)) : List ℚ :=
  ds.filterMap fun d => if d.1 = "crawl-delay" then parseF64 d.2 else none

/-- Last element of a list, or a default option. -/
def lastOr {α : Type} (d : Option α) (l : List α) : Option α :=
  match l.getLast? with
  | some x => some x
  | none => d

/-- Modelled from the claim's words (the single-group selection the
claim asserts): pick the group whose agent token equals the user agent
when one exists, otherwise the `*` group, and build the record from that
group's directives only. -/
def selectedGroupRecord (content ua : String) : RobotsData :=
  let ds := annotDirs "" (rustLines content)
  let tok := if ds.any (fun d => d.1 == ua) then ua else "*"
  let sel := (ds.filter fun d => d.1 == tok).map fun d => d.2
  ⟨dirAllow sel, dirDisallow sel, (dirDelays sel).getLast?⟩

/-! ## Lemmas, refutations and claim theorems -/

/-! Sanity checks on the URL model. -/

example : parseUrl "http://t/" = some ⟨"http", "t", "/", none, none⟩ := by decide

example : parseUrl "http://t//" = some ⟨"http", "t", "//", none, none⟩ := by decide

example : parseUrl "HTTP://Ex.COM/A?q=1#f" =
    some ⟨"http", "ex.com", "/A", some "q=1", some "f"⟩ := by decide

example : parseUrl "mailto:x@y" = none := by decide

example : normalize_url ⟨"http", "t", "/a", none, none⟩ = "http://t/a" := by decide

example : normalize_url ⟨"http", "t", "//", none, none⟩ = "http://t/" := by decide

example : normalize_url ⟨"http", "t", "/", none, some "frag"⟩ = "http://t" := by decide

/-! Sanity checks on the robots model. -/

example :
    parseRobotsTxt "User-agent: *\nDisallow: /private\n" "bot" =
      ⟨[], ["/private"], none⟩ := by decide

example :
    parseRobotsTxt "# c\nUser-agent: bot\nCrawl-delay: 5\n" "bot" =
      ⟨[], [], some 5⟩ := by decide

example : parseF64 "2.5" = some ((2 : ℕ) + ((5 : ℕ) : ℚ) / 10 ^ 1) := rfl

example : check_path_allowed ⟨[], ["/private"], none⟩ "/private/x" = false := by decide

example : check_path_allowed ⟨["/private/x"], ["/private"], none⟩ "/private/x" = true := by
  decide

/-- Whatever branch `process_page` takes, the page it returns keeps the
input's URL and depth. -/
lemma process_page_some_url_depth {cfg : CrawlerConfig} {env : Env} {pg pp : Page}
    {links : List String} (h : process_page cfg env pg = some (pp, links)) :
    pp.url = pg.url ∧ pp.depth = pg.depth := by
  unfold process_page at h
  split at h
  · cases h
    simp [Page.new, Page.with_status_code, Page.mark_crawled]
  · split at h
    · exact absurd h (by simp)
    · split at h
      · cases h
        simp [Page.new, Page.with_status_code, Page.mark_crawled]
      · split at h
        · cases h
          simp [Page.new, Page.with_status_code, Page.with_content_type, Page.mark_crawled]
        · split at h
          · exact absurd h (by simp)
          · rename_i links' title heq
            cases h
            cases title <;>
              simp [Page.new, Page.with_links, Page.with_status_code, Page.with_content_type,
                Page.with_size, Page.mark_crawled, Page.with_title]

/-- Splitting `filterMap wActive` over a split worker list. -/
lemma filterMap_wActive_split (ws₁ ws₂ : List Worker) (w : Worker) :
    (ws₁ ++ w :: ws₂).filterMap wActive =
      ws₁.filterMap wActive ++ ((wActive w).toList ++ ws₂.filterMap wActive) := by
  cases hw : wActive w <;>
    simp [List.filterMap_append, List.filterMap_cons, hw]

/-- Moving one element out of the middle of a three-way concatenation. -/
lemma perm_extract_mid {α : Type} (A B C : List α) (a : α) :
    List.Perm (A ++ (B ++ a :: C)) (a :: (A ++ (B ++ C))) := by
  have h1 : A ++ (B ++ a :: C) = (A ++ B) ++ a :: C := by simp [List.append_assoc]
  have h2 : a :: (A ++ (B ++ C)) = a :: ((A ++ B) ++ C) := by simp [List.append_assoc]
  rw [h1, h2]
  exact List.perm_middle

/-- Membership in a split list. -/
lemma mem_split_iff {α : Type} {ws₁ ws₂ : List α} {w x : α} :
    x ∈ ws₁ ++ w :: ws₂ ↔ x ∈ ws₁ ∨ x = w ∨ x ∈ ws₂ := by
  simp [List.mem_append, List.mem_cons]

/-- Every step of the crawl preserves the invariant. -/
lemma step_inv {cfg : CrawlerConfig} {env : Env} {s s' : CrawlState}
    (inv : CrawlInv cfg env s) (hs : Step cfg env s s') : CrawlInv cfg env s' := by
  obtain ⟨hnd, hv, hwd, hpd, havg, hpl, hcp, hgs⟩ := inv
  cases hs with
  | halt_timeout hh =>
    exact ⟨hnd, hv, hwd, hpd, havg, hpl, hcp, hgs⟩
  | discard_depth p fr' hh hf hd =>
    have hud : urlsOf s = p.url :: urlsOf { s with frontier := fr' } := by
      simp [urlsOf, hf]
    refine ⟨?_, ?_, hwd, hpd, havg, hpl, hcp, hgs⟩
    · have := hnd
      rw [hud] at this
      exact this.of_cons
    · intro u hu
      exact hv u (by rw [hud]; exact List.mem_cons_of_mem _ hu)
  | discard_domain p fr' m hh hf hd hm hc =>
    have hud : urlsOf s = p.url :: urlsOf { s with frontier := fr' } := by
      simp [urlsOf, hf]
    refine ⟨?_, ?_, hwd, hpd, havg, hpl, hcp, hgs⟩
    · have := hnd
      rw [hud] at this
      exact this.of_cons
    · intro u hu
      exact hv u (by rw [hud]; exact List.mem_cons_of_mem _ hu)
  | halt_total p fr' m hh hf hd hdom hm hc =>
    have hud : urlsOf s = p.url :: urlsOf { s with
        frontier := fr',
        domainCounters := bumpDomain cfg s.domainCounters p,
        halted := true } := by
      simp [urlsOf, hf]
    refine ⟨?_, ?_, hwd, hpd, havg, hpl, hcp, hgs⟩
    · have := hnd
      rw [hud] at this
      exact this.of_cons
    · intro u hu
      exact hv u (by rw [hud]; exact List.mem_cons_of_mem _ hu)
  | spawn p fr' hh hf hd hdom ht =>
    have hperm : List.Perm
        (urlsOf { s with
          frontier := fr',
          domainCounters := bumpDomain cfg s.domainCounters p,
          workers := s.workers ++ [⟨p, .running⟩] })
        (urlsOf s) := by
      have h1 : urlsOf { s with
          frontier := fr',
          domainCounters := bumpDomain cfg s.domainCounters p,
          workers := s.workers ++ [⟨p, .running⟩] } =
          fr'.map Page.url ++ (s.workers.filterMap wActive ++
            (p.url :: s.pages.map Page.url)) := by
        simp [urlsOf, List.filterMap_append, wActive, List.append_assoc]
      rw [h1]
      have h3 : urlsOf s = p.url :: (fr'.map Page.url ++
          (s.workers.filterMap wActive ++ s.pages.map Page.url)) := by
        simp [urlsOf, hf, List.append_assoc]
      rw [h3]
      exact perm_extract_mid _ _ _ _
    refine ⟨hperm.symm.nodup hnd, ?_, ?_, hpd, havg, ?_, ?_, hgs⟩
    · intro u hu
      exact hv u (hperm.mem_iff.mp hu)
    · intro w hw
      rcases List.mem_append.mp hw with h | h
      · exact hwd w h
      · rcases List.mem_singleton.mp h with rfl
        exact hd
    · intro w hw ls hor
      rcases List.mem_append.mp hw with h | h
      · exact hpl w h ls hor
      · rcases List.mem_singleton.mp h with rfl
        rcases hor with h' | h' <;> exact absurd h' (by simp)
    · intro w hw hk
      rcases List.mem_append.mp hw with h | h
      · exact hcp w h hk
      · rcases List.mem_singleton.mp h with rfl
        exact absurd rfl hk
  | worker_error ws₁ ws₂ pg hw hp =>
    have hmem : ∀ {w : Worker}, w ∈ ws₁ ++ ws₂ → w ∈ s.workers := by
      intro w h
      rw [hw]
      rcases List.mem_append.mp h with h | h
      · exact List.mem_append_left _ h
      · exact List.mem_append_right _ (List.mem_cons_of_mem _ h)
    have hsub : List.Sublist (urlsOf { s with
        workers := ws₁ ++ ws₂,
        stats := { s.stats with error_count := s.stats.error_count + 1 } }) (urlsOf s) := by
      simp only [urlsOf, hw, filterMap_wActive_split, List.filterMap_append, wActive,
        Option.toList_some]
      refine List.Sublist.append (List.Sublist.append (List.Sublist.refl _) ?_)
        (List.Sublist.refl _)
      exact List.Sublist.append (List.Sublist.refl _) (List.sublist_cons_self _ _)
    refine ⟨hsub.nodup hnd, ?_, ?_, hpd, by simpa using havg, ?_, ?_, hgs⟩
    · intro u hu
      exact hv u (hsub.subset hu)
    · intro w h
      exact hwd w (hmem h)
    · intro w h ls hor
      exact hpl w (hmem h) ls hor
    · intro w h hk
      exact hcp w (hmem h) hk
  | worker_push ws₁ ws₂ pg pp links hw hp =>
    obtain ⟨hup, hud⟩ := process_page_some_url_depth hp
    have hpgmem : (⟨pg, .running⟩ : Worker) ∈ s.workers := by
      rw [hw]
      exact List.mem_append_right _ (List.mem_cons_self _ _)
    have hmem : ∀ {w : Worker}, w ∈ ws₁ ++ ⟨pg, .graphing links⟩ :: ws₂ →
        w ∈ s.workers ∨ w = ⟨pg, .graphing links⟩ := by
      intro w h
      rcases mem_split_iff.mp h with h | h | h
      · exact Or.inl (by rw [hw]; exact List.mem_append_left _ h)
      · exact Or.inr h
      · exact Or.inl (by rw [hw]; exact List.mem_append_right _ (List.mem_cons_of_mem _ h))
    have hperm : List.Perm (urlsOf { s with
        workers := ws₁ ++ ⟨pg, .graphing links⟩ :: ws₂,
        pages := s.pages ++ [pp] }) (urlsOf s) := by
      have e2 : urlsOf { s with
          workers := ws₁ ++ ⟨pg, .graphing links⟩ :: ws₂,
          pages := s.pages ++ [pp] } =
          s.frontier.map Page.url ++ (ws₁.filterMap wActive ++
            (ws₂.filterMap wActive ++ (s.pages.map Page.url ++ [pg.url]))) := by
        simp [urlsOf, filterMap_wActive_split, wActive, hup, List.append_assoc]
      have e1 : urlsOf s =
          s.frontier.map Page.url ++ (ws₁.filterMap wActive ++
            (pg.url :: (ws₂.filterMap wActive ++ s.pages.map Page.url))) := by
        simp [urlsOf, hw, filterMap_wActive_split, wActive, List.append_assoc]
      rw [e1, e2]
      exact List.Perm.append_left _ (List.Perm.append_left _
        ((List.Perm.append_left _ (List.perm_append_singleton _ _)).trans List.perm_middle))
    refine ⟨hperm.symm.nodup hnd, ?_, ?_, ?_, havg, ?_, ?_, ?_⟩
    · intro u hu
      exact hv u (hperm.mem_iff.mp hu)
    · intro w h
      rcases hmem h with h | rfl
      · exact hwd w h
      · exact hwd ⟨pg, .running⟩ hpgmem
    · intro q hq
      rcases List.mem_append.mp hq with h | h
      · exact hpd q h
      · rcases List.mem_singleton.mp h with rfl
        rw [hud]
        exact hwd ⟨pg, .running⟩ hpgmem
    · intro w h ls hor
      rcases hmem h with h | rfl
      · exact hpl w h ls hor
      · rcases hor with h' | h'
        · cases h'
          exact ⟨pp, hp⟩
        · exact absurd h' (by simp)
    · intro w h hk
      rcases hmem h with h | rfl
      · obtain ⟨q, hq, hq'⟩ := hcp w h hk
        exact ⟨q, List.mem_append_left _ hq, hq'⟩
      · exact ⟨pp, List.mem_append_right _ (List.mem_singleton_self _), hup⟩
    · intro e he
      obtain ⟨⟨q, hq, hq'⟩, hrest⟩ := hgs e he
      exact ⟨⟨q, List.mem_append_left _ hq, hq'⟩, hrest⟩
  | worker_graph ws₁ ws₂ pg links hw =>
    have hgmem : (⟨pg, .graphing links⟩ : Worker) ∈ s.workers := by
      rw [hw]
      exact List.mem_append_right _ (List.mem_cons_self _ _)
    have hmem : ∀ {w : Worker}, w ∈ ws₁ ++ ⟨pg, .bumping links⟩ :: ws₂ →
        w ∈ s.workers ∨ w = ⟨pg, .bumping links⟩ := by
      intro w h
      rcases mem_split_iff.mp h with h | h | h
      · exact Or.inl (by rw [hw]; exact List.mem_append_left _ h)
      · exact Or.inr h
      · exact Or.inl (by rw [hw]; exact List.mem_append_right _ (List.mem_cons_of_mem _ h))
    have e : urlsOf { s with
        workers := ws₁ ++ ⟨pg, .bumping links⟩ :: ws₂,
        graph := (pg.url, links) :: s.graph } = urlsOf s := by
      simp [urlsOf, hw, filterMap_wActive_split, wActive]
    refine ⟨by rw [e]; exact hnd, ?_, ?_, hpd, havg, ?_, ?_, ?_⟩
    · intro u hu
      rw [e] at hu
      exact hv u hu
    · intro w h
      rcases hmem h with h | rfl
      · exact hwd w h
      · exact hwd ⟨pg, .graphing links⟩ hgmem
    · intro w h ls hor
      rcases hmem h with h | rfl
      · exact hpl w h ls hor
      · rcases hor with h' | h'
        · exact absurd h' (by simp)
        · cases h'
          exact hpl ⟨pg, .graphing links⟩ hgmem links (Or.inl rfl)
    · intro w h hk
      rcases hmem h with h | rfl
      · exact hcp w h hk
      · exact hcp ⟨pg, .graphing links⟩ hgmem (by simp)
    · intro e' he'
      rcases List.mem_cons.mp he' with rfl | he'
      · refine ⟨hcp ⟨pg, .graphing links⟩ hgmem (by simp), ?_⟩
        obtain ⟨pp, hpp⟩ := hpl ⟨pg, .graphing links⟩ hgmem links (Or.inl rfl)
        exact ⟨pg, pp, rfl, hpp⟩
      · exact hgs e' he'
  | worker_bump ws₁ ws₂ pg links hw =>
    have hbmem : (⟨pg, .bumping links⟩ : Worker) ∈ s.workers := by
      rw [hw]
      exact List.mem_append_right _ (List.mem_cons_self _ _)
    have hmem : ∀ {w : Worker}, w ∈ ws₁ ++ ⟨pg, .queueing links⟩ :: ws₂ →
        w ∈ s.workers ∨ w = ⟨pg, .queueing links⟩ := by
      intro w h
      rcases mem_split_iff.mp h with h | h | h
      · exact Or.inl (by rw [hw]; exact List.mem_append_left _ h)
      · exact Or.inr h
      · exact Or.inl (by rw [hw]; exact List.mem_append_right _ (List.mem_cons_of_mem _ h))
    have e : urlsOf { s with
        workers := ws₁ ++ ⟨pg, .queueing links⟩ :: ws₂,
        stats := { s.stats with success_count := s.stats.success_count + 1 } } =
        urlsOf s := by
      simp [urlsOf, hw, filterMap_wActive_split, wActive]
    refine ⟨by rw [e]; exact hnd, ?_, ?_, hpd, by simpa using havg, ?_, ?_, hgs⟩
    · intro u hu
      rw [e] at hu
      exact hv u hu
    · intro w h
      rcases hmem h with h | rfl
      · exact hwd w h
      · exact hwd ⟨pg, .bumping links⟩ hbmem
    · intro w h ls hor
      rcases hmem h with h | rfl
      · exact hpl w h ls hor
      · rcases hor with h' | h' <;> exact absurd h' (by simp)
    · intro w h hk
      rcases hmem h with h | rfl
      · exact hcp w h hk
      · exact hcp ⟨pg, .bumping links⟩ hbmem (by simp)
  | link_seen ws₁ ws₂ pg l ls hw hvv =>
    have hqmem : (⟨pg, .queueing (l :: ls)⟩ : Worker) ∈ s.workers := by
      rw [hw]
      exact List.mem_append_right _ (List.mem_cons_self _ _)
    have hmem : ∀ {w : Worker}, w ∈ ws₁ ++ ⟨pg, .queueing ls⟩ :: ws₂ →
        w ∈ s.workers ∨ w = ⟨pg, .queueing ls⟩ := by
      intro w h
      rcases mem_split_iff.mp h with h | h | h
      · exact Or.inl (by rw [hw]; exact List.mem_append_left _ h)
      · exact Or.inr h
      · exact Or.inl (by rw [hw]; exact List.mem_append_right _ (List.mem_cons_of_mem _ h))
    have e : urlsOf { s with workers := ws₁ ++ ⟨pg, .queueing ls⟩ :: ws₂ } = urlsOf s := by
      simp [urlsOf, hw, filterMap_wActive_split, wActive]
    refine ⟨by rw [e]; exact hnd, ?_, ?_, hpd, havg, ?_, ?_, hgs⟩
    · intro u hu
      rw [e] at hu
      exact hv u hu
    · intro w h
      rcases hmem h with h | rfl
      · exact hwd w h
      · exact hwd ⟨pg, .queueing (l :: ls)⟩ hqmem
    · intro w h ls' hor
      rcases hmem h with h | rfl
      · exact hpl w h ls' hor
      · rcases hor with h' | h' <;> exact absurd h' (by simp)
    · intro w h hk
      rcases hmem h with h | rfl
      · exact hcp w h hk
      · exact hcp ⟨pg, .queueing (l :: ls)⟩ hqmem (by simp)
  | link_new_queued ws₁ ws₂ pg l ls hw hvv ha he =>
    have hqmem : (⟨pg, .queueing (l :: ls)⟩ : Worker) ∈ s.workers := by
      rw [hw]
      exact List.mem_append_right _ (List.mem_cons_self _ _)
    have hmem : ∀ {w : Worker}, w ∈ ws₁ ++ ⟨pg, .queueing ls⟩ :: ws₂ →
        w ∈ s.workers ∨ w = ⟨pg, .queueing ls⟩ := by
      intro w h
      rcases mem_split_iff.mp h with h | h | h
      · exact Or.inl (by rw [hw]; exact List.mem_append_left _ h)
      · exact Or.inr h
      · exact Or.inl (by rw [hw]; exact List.mem_append_right _ (List.mem_cons_of_mem _ h))
    have hlnot : l ∉ urlsOf s := fun hmem' => hvv (hv l hmem')
    have hperm : List.Perm (urlsOf { s with
        visited := l :: s.visited,
        workers := ws₁ ++ ⟨pg, .queueing ls⟩ :: ws₂,
        frontier := s.frontier ++ [Page.new l (pg.depth + 1)] }) (l :: urlsOf s) := by
      have e2 : urlsOf { s with
          visited := l :: s.visited,
          workers := ws₁ ++ ⟨pg, .queueing ls⟩ :: ws₂,
          frontier := s.frontier ++ [Page.new l (pg.depth + 1)] } =
          s.frontier.map Page.url ++ (l :: (ws₁.filterMap wActive ++
            (ws₂.filterMap wActive ++ s.pages.map Page.url))) := by
        simp [urlsOf, filterMap_wActive_split, wActive, Page.new, List.append_assoc]
      have e1 : urlsOf s =
          s.frontier.map Page.url ++ (ws₁.filterMap wActive ++
            (ws₂.filterMap wActive ++ s.pages.map Page.url)) := by
        simp [urlsOf, hw, filterMap_wActive_split, wActive, List.append_assoc]
      rw [e1, e2]
      exact List.perm_middle
    refine ⟨hperm.symm.nodup (List.nodup_cons.mpr ⟨hlnot, hnd⟩), ?_, ?_, hpd, havg,
      ?_, ?_, hgs⟩
    · intro u hu
      rcases List.mem_cons.mp (hperm.subset hu) with rfl | h
      · exact List.mem_cons_self _ _
      · exact List.mem_cons_of_mem _ (hv u h)
    · intro w h
      rcases hmem h with h | rfl
      · exact hwd w h
      · exact hwd ⟨pg, .queueing (l :: ls)⟩ hqmem
    · intro w h ls' hor
      rcases hmem h with h | rfl
      · exact hpl w h ls' hor
      · rcases hor with h' | h' <;> exact absurd h' (by simp)
    · intro w h hk
      rcases hmem h with h | rfl
      · exact hcp w h hk
      · exact hcp ⟨pg, .queueing (l :: ls)⟩ hqmem (by simp)
  | link_new_filtered ws₁ ws₂ pg l ls hw hvv hfil =>
    have hqmem : (⟨pg, .queueing (l :: ls)⟩ : Worker) ∈ s.workers := by
      rw [hw]
      exact List.mem_append_right _ (List.mem_cons_self _ _)
    have hmem : ∀ {w : Worker}, w ∈ ws₁ ++ ⟨pg, .queueing ls⟩ :: ws₂ →
        w ∈ s.workers ∨ w = ⟨pg, .queueing ls⟩ := by
      intro w h
      rcases mem_split_iff.mp h with h | h | h
      · exact Or.inl (by rw [hw]; exact List.mem_append_left _ h)
      · exact Or.inr h
      · exact Or.inl (by rw [hw]; exact List.mem_append_right _ (List.mem_cons_of_mem _ h))
    have e : urlsOf { s with
        visited := l :: s.visited,
        workers := ws₁ ++ ⟨pg, .queueing ls⟩ :: ws₂ } = urlsOf s := by
      simp [urlsOf, hw, filterMap_wActive_split, wActive]
    refine ⟨by rw [e]; exact hnd, ?_, ?_, hpd, havg, ?_, ?_, hgs⟩
    · intro u hu
      rw [e] at hu
      exact List.mem_cons_of_mem _ (hv u hu)
    · intro w h
      rcases hmem h with h | rfl
      · exact hwd w h
      · exact hwd ⟨pg, .queueing (l :: ls)⟩ hqmem
    · intro w h ls' hor
      rcases hmem h with h | rfl
      · exact hpl w h ls' hor
      · rcases hor with h' | h' <;> exact absurd h' (by simp)
    · intro w h hk
      rcases hmem h with h | rfl
      · exact hcp w h hk
      · exact hcp ⟨pg, .queueing (l :: ls)⟩ hqmem (by simp)
  | worker_done ws₁ ws₂ pg hw =>
    have hmem : ∀ {w : Worker}, w ∈ ws₁ ++ ws₂ → w ∈ s.workers := by
      intro w h
      rw [hw]
      rcases List.mem_append.mp h with h | h
      · exact List.mem_append_left _ h
      · exact List.mem_append_right _ (List.mem_cons_of_mem _ h)
    have e : urlsOf { s with workers := ws₁ ++ ws₂ } = urlsOf s := by
      simp [urlsOf, hw, filterMap_wActive_split, wActive, List.filterMap_append]
    refine ⟨by rw [e]; exact hnd, ?_, ?_, hpd, havg, ?_, ?_, hgs⟩
    · intro u hu
      rw [e] at hu
      exact hv u hu
    · intro w h
      exact hwd w (hmem h)
    · intro w h ls hor
      exact hpl w (hmem h) ls hor
    · intro w h hk
      exact hcp w (hmem h) hk

/-- The invariant holds right after the crawl prologue. -/
lemma init_inv (cfg : CrawlerConfig) (env : Env) (start : String) :
    CrawlInv cfg env (initState start) := by
  refine ⟨?_, ?_, ?_, ?_, rfl, ?_, ?_, ?_⟩ <;>
    simp [initState, urlsOf, Page.new]

/-- Every reachable state of a crawl satisfies the invariant. -/
lemma reachable_inv {cfg : CrawlerConfig} {env : Env} {start : String}
    {s : CrawlState} (h : Reachable cfg env start s) : CrawlInv cfg env s := by
  induction h with
  | init => exact init_inv cfg env start
  | step _ hs ih => exact step_inv ih hs

/-! ## Claim theorems: universal invariants (C1, C2, C10, C3-amended) -/

/-- C1. In every reachable state of every crawl — in particular in the
state from which `result.pages` is cloned — the URLs of the committed
pages are pairwise distinct: admission (test-and-insert under the mutex,
the seed before the initial send) dispatches each URL at most once. -/
theorem crawl_pages_pairwise_distinct (cfg : CrawlerConfig) (env : Env)
    (start : String) (s : CrawlState) (h : Reachable cfg env start s) :
    (s.pages.map Page.url).Nodup := by
  have hnd := (reachable_inv h).nodupUrls
  rw [urlsOf] at hnd
  exact (List.nodup_append.mp hnd).2.1

/-- Witness for `crawl_pages_pairwise_distinct` at a concrete crawl state. -/
theorem crawl_pages_pairwise_distinct_witness :
    (((initState "http://a/").pages).map Page.url).Nodup :=
  crawl_pages_pairwise_distinct
    ⟨2, true, [], [], none, none, 1, "RustCrawler/1.0"⟩
    ⟨fun _ => true, fun _ => none, fun _ => [], fun _ => none⟩
    "http://a/" (initState "http://a/") Reachable.init

/-- C2. In every reachable state of every crawl, every committed page —
and every page held by a spawned (fetching) worker — has
`depth < max_depth`; hence `depth ≤ max_depth` and no page with
`depth = max_depth` is ever fetched or committed (the dispatch loop
discards such pages before spawning). -/
theorem crawl_depth_bound (cfg : CrawlerConfig) (env : Env)
    (start : String) (s : CrawlState) (h : Reachable cfg env start s) :
    (∀ p ∈ s.pages, p.depth ≤ cfg.max_depth ∧ p.depth ≠ cfg.max_depth) ∧
    (∀ w ∈ s.workers, w.page.depth < cfg.max_depth) := by
  obtain ⟨-, -, hwd, hpd, -, -, -, -⟩ := reachable_inv h
  exact ⟨fun p hp => ⟨Nat.le_of_lt (hpd p hp), Nat.ne_of_lt (hpd p hp)⟩, hwd⟩

/-- Witness for `crawl_depth_bound` at a concrete crawl state. -/
theorem crawl_depth_bound_witness :
    (∀ p ∈ (initState "http://a/").pages, p.depth ≤ 2 ∧ p.depth ≠ 2) ∧
    (∀ w ∈ (initState "http://a/").workers, w.page.depth < 2) :=
  crawl_depth_bound
    ⟨2, true, [], [], none, none, 1, "RustCrawler/1.0"⟩
    ⟨fun _ => true, fun _ => none, fun _ => [], fun _ => none⟩
    "http://a/" (initState "http://a/") Reachable.init

/-- C10. In every reachable state of every crawl — in particular in the
final stats snapshot — `avg_page_size` is still the `0` it was
initialized to: no step of the system writes it. -/
theorem avg_page_size_always_zero (cfg : CrawlerConfig) (env : Env)
    (start : String) (s : CrawlState) (h : Reachable cfg env start s) :
    s.stats.avg_page_size = 0 :=
  (reachable_inv h).avgZero

/-- Witness for `avg_page_size_always_zero` at a concrete crawl state. -/
theorem avg_page_size_always_zero_witness :
    (initState "http://a/").stats.avg_page_size = 0 :=
  avg_page_size_always_zero
    ⟨2, true, [], [], none, none, 1, "RustCrawler/1.0"⟩
    ⟨fun _ => true, fun _ => none, fun _ => [], fun _ => none⟩
    "http://a/" (initState "http://a/") Reachable.init

/-- C3 (amended). Every entry of the link graph belongs to a URL whose
`process_page` returned `Ok` with exactly that link list — i.e. a key is
created for *every* committed outcome (robots-disallowed, non-2xx and
non-HTML included, with empty link lists), and only transport errors
leave no key; moreover every key's page was pushed to the store before
the graph insert. -/
theorem crawl_graph_keys_from_committed (cfg : CrawlerConfig) (env : Env)
    (start : String) (s : CrawlState) (h : Reachable cfg env start s) :
    ∀ e ∈ s.graph, (∃ p ∈ s.pages, p.url = e.1) ∧
      ∃ pg pp, pg.url = e.1 ∧ process_page cfg env pg = some (pp, e.2) :=
  (reachable_inv h).graphSound

/-- The state `sC3` is reachable by a crawl of `http://s/`. -/
lemma reachC3 : Reachable cfgT envC3 "http://s/" sC3 := by
  have h0 : Reachable cfgT envC3 "http://s/" (initState "http://s/") := Reachable.init
  have h1 := h0.step (Step.spawn _ (Page.new "http://s/" 0) [] rfl rfl (by decide)
    True.intro True.intro)
  have h2 := h1.step (Step.worker_push _ [] [] (Page.new "http://s/" 0) _ _ rfl rfl)
  have h3 := h2.step (Step.worker_graph _ [] [] (Page.new "http://s/" 0) _ rfl)
  exact h3

/-- Witness for `crawl_graph_keys_from_committed` at the concrete crawl
state `sC3` and its graph entry for `http://s/`. -/
theorem crawl_graph_keys_from_committed_witness :
    (∃ p ∈ sC3.pages, p.url = ("http://s/", ([] : List String)).1) ∧
    ∃ pg pp, pg.url = ("http://s/", ([] : List String)).1 ∧
      process_page cfgT envC3 pg = some (pp, ("http://s/", ([] : List String)).2) :=
  crawl_graph_keys_from_committed cfgT envC3 "http://s/" sC3 reachC3
    ("http://s/", []) (by decide)

/-- C3 (counterexample). A crawl of `http://s/`, whose fetch is a plain
HTTP 404 (no 2xx, no HTML, no link extraction), reaches the state `sC3`
in which `http://s/` *is* a key of the graph (with an empty link list) —
refuting the claim that no graph key is created for a non-2xx response. -/
theorem graph_key_for_non2xx_counterexample :
    Reachable cfgT envC3 "http://s/" sC3 ∧
    envC3.respond "http://s/" = some (404, "", "") ∧
    statusIsSuccess 404 = false ∧
    alookup sC3.graph "http://s/" = some [] :=
  ⟨reachC3, rfl, by decide, by decide⟩

/-- A complete interleaving of the S1 crawl: both pages handled, frontier
drained, all workers finished, loop not timed out. -/
lemma s1_run : ∃ s, Reachable cfgT envS1 "http://t/" s ∧
    s.frontier = [] ∧ s.workers = [] ∧ s.halted = false ∧
    s.pages.length = 2 ∧
    alookup s.graph "http://t/" = some ["http://t/a"] ∧
    alookup s.graph "http://t" = none ∧
    s.stats.success_count = 2 ∧ s.stats.error_count = 0 := by
  have h0 : Reachable cfgT envS1 "http://t/" (initState "http://t/") := Reachable.init
  have h1 := h0.step (Step.spawn _ (Page.new "http://t/" 0) [] rfl rfl (by decide)
    True.intro True.intro)
  have h2 := h1.step (Step.worker_push _ [] [] (Page.new "http://t/" 0) _ _ rfl rfl)
  have h3 := h2.step (Step.worker_graph _ [] [] (Page.new "http://t/" 0) _ rfl)
  have h4 := h3.step (Step.worker_bump _ [] [] (Page.new "http://t/" 0) _ rfl)
  have h5 := h4.step (Step.link_new_queued _ [] [] (Page.new "http://t/" 0)
    "http://t/a" [] rfl (by decide) (by decide) (by decide))
  have h6 := h5.step (Step.worker_done _ [] [] (Page.new "http://t/" 0) rfl)
  have h7 := h6.step (Step.spawn _ (Page.new "http://t/a" (0 + 1)) [] rfl rfl (by decide)
    True.intro True.intro)
  have h8 := h7.step (Step.worker_push _ [] [] (Page.new "http://t/a" (0 + 1)) _ _ rfl rfl)
  have h9 := h8.step (Step.worker_graph _ [] [] (Page.new "http://t/a" (0 + 1)) _ rfl)
  have h10 := h9.step (Step.worker_bump _ [] [] (Page.new "http://t/a" (0 + 1)) _ rfl)
  have h11 := h10.step (Step.worker_done _ [] [] (Page.new "http://t/a" (0 + 1)) rfl)
  exact ⟨_, h11, by decide, by decide, by decide, by decide, by decide, by decide,
    by decide, by decide⟩

/-- C4 (counterexample). A completed S1 crawl (frontier drained, no live
workers, no timeout) has `success_count = 2` — the 404 page *does* bump
the success counter, since every `Ok` of `process_page` does — and has no
graph key `"http://t"`: the key is the seed string `"http://t/"`
unchanged, since the seed URL is never normalized. This refutes
`success_count == 1` and `graph["http://t"] == ["http://t/a"]`. -/
theorem s1_counterexample :
    ∃ s, Reachable cfgT envS1 "http://t/" s ∧
      s.frontier = [] ∧ s.workers = [] ∧ s.halted = false ∧
      s.pages.length = 2 ∧ s.stats.error_count = 0 ∧
      s.stats.success_count ≠ 1 ∧
      alookup s.graph "http://t" = none := by
  obtain ⟨s, hr, hf, hw, hh, hp, hg, hg', hsc, hec⟩ := s1_run
  exact ⟨s, hr, hf, hw, hh, hp, hec, by rw [hsc]; decide, hg'⟩

/-- C4 (amended). A completed S1 crawl yields `pages.len() = 2`,
`graph["http://t/"] = ["http://t/a"]` (the key carries the seed's
trailing slash), `success_count = 2` (both committed pages count,
including the 404 one), and `error_count = 0` (HTTP 404 is not an
error). -/
theorem s1_scenario_result :
    ∃ s, Reachable cfgT envS1 "http://t/" s ∧
      s.frontier = [] ∧ s.workers = [] ∧ s.halted = false ∧
      s.pages.length = 2 ∧
      alookup s.graph "http://t/" = some ["http://t/a"] ∧
      s.stats.success_count = 2 ∧ s.stats.error_count = 0 := by
  obtain ⟨s, hr, hf, hw, hh, hp, hg, hg', hsc, hec⟩ := s1_run
  exact ⟨s, hr, hf, hw, hh, hp, hg, hsc, hec⟩

/-! ## URL model: basic lemmas -/

lemma strData_append (a b : String) : (a ++ b).data = a.data ++ b.data := rfl

lemma strMk_eta (s : String) : String.mk s.data = s := rfl

lemma sepData : "://".data = [':', '/', '/'] := rfl

lemma slashData : "/".data = ['/'] := rfl

lemma qmarkData (q : String) : ("?" ++ q).data = '?' :: q.data := rfl

/-- Either `lowerChar` fixes `c`, or `c` is a table key and the result is
the table value. -/
lemma lowerChar_cases (c : Char) :
    lowerChar c = c ∨ ∃ e, e ∈ upperLower ∧ e.1 = c ∧ lowerChar c = e.2 := by
  unfold lowerChar
  cases hf : upperLower.find? (fun e => e.1 == c) with
  | none => exact Or.inl rfl
  | some e =>
    exact Or.inr ⟨e, List.mem_of_find?_eq_some hf, by simpa using List.find?_some hf, rfl⟩

/-- Table values are `lowerChar`-fixed. -/
lemma lowerChar_snd (e : Char × Char) (he : e ∈ upperLower) : lowerChar e.2 = e.2 := by
  fin_cases he <;> decide

lemma lowerChar_idem (c : Char) : lowerChar (lowerChar c) = lowerChar c := by
  rcases lowerChar_cases c with h | ⟨e, he, h1, h2⟩
  · rw [h]
    exact h
  · rw [h2]
    exact lowerChar_snd e he

/-- The map `lowerChar` never produces a URL delimiter that was not already
there. -/
lemma lowerChar_notSpecial (c d : Char) (hd : d ∈ ['/', '?', '#', '@', ':'])
    (hc : c ≠ d) : lowerChar c ≠ d := by
  rcases lowerChar_cases c with h | ⟨e, he, h1, h2⟩
  · rw [h]
    exact hc
  · rw [h2]
    fin_cases he <;> fin_cases hd <;> decide

/-- The split `takeUntil` cuts exactly at a planted boundary. -/
lemma takeUntil_append (p : Char → Bool) (xs ys : List Char)
    (hx : ∀ c ∈ xs, p c = false)
    (hy : ys = [] ∨ ∃ d ds, ys = d :: ds ∧ p d = true) :
    takeUntil p (xs ++ ys) = (xs, ys) := by
  induction xs with
  | nil =>
    rcases hy with rfl | ⟨d, ds, rfl, hd⟩
    · rfl
    · simp [takeUntil, hd]
  | cons x xs ih =>
    have hx' : p x = false := hx x (List.mem_cons_self _ _)
    have := ih (fun c hc => hx c (List.mem_cons_of_mem _ hc))
    simp [takeUntil, hx', this]

lemma takeUntil_cons_false (p : Char → Bool) (c : Char) (cs : List Char)
    (h : p c = false) :
    takeUntil p (c :: cs) = (c :: (takeUntil p cs).1, (takeUntil p cs).2) := by
  simp [takeUntil, h]

lemma takeUntil_fst_false (p : Char → Bool) (cs : List Char) :
    ∀ c ∈ (takeUntil p cs).1, p c = false := by
  induction cs with
  | nil => simp [takeUntil]
  | cons x xs ih =>
    by_cases hx : p x = true
    · simp [takeUntil, hx]
    · have hx' : p x = false := by simpa using hx
      rw [takeUntil_cons_false p x xs hx']
      intro c hc
      rcases List.mem_cons.mp hc with rfl | hc
      · exact hx'
      · exact ih c hc

lemma takeUntil_snd_cases (p : Char → Bool) (cs : List Char) :
    (takeUntil p cs).2 = [] ∨
      ∃ d ds, (takeUntil p cs).2 = d :: ds ∧ p d = true := by
  induction cs with
  | nil => exact Or.inl rfl
  | cons x xs ih =>
    by_cases hx : p x = true
    · exact Or.inr ⟨x, xs, by simp [takeUntil, hx], hx⟩
    · have hx' : p x = false := by simpa using hx
      rw [takeUntil_cons_false p x xs hx']
      exact ih

/-- Character-level form of a fragment-free serialization. -/
lemma serialize_data_noFrag (u : Url) (hf : u.fragment = none) :
    (serializeUrl u).data = u.scheme.data ++ ':' :: '/' :: '/' ::
      (u.host.data ++ (u.path.data ++ qdata u.query)) := by
  cases u with
  | mk scheme host path query fragment =>
    cases hf
    cases query <;>
      simp [serializeUrl, strData_append, qdata, List.append_assoc]

/-- Parsing inverts an assembled http(s) URL string. -/
lemma parseUrl_assembled (s scheme host path : String) (q : Option String)
    (hdata : s.data = scheme.data ++ ':' :: '/' :: '/' ::
      (host.data ++ (path.data ++ qdata q)))
    (hs : scheme = "http" ∨ scheme = "https")
    (hne : host.data ≠ [])
    (hlow : host.data.map lowerChar = host.data)
    (hhost : ∀ c ∈ host.data, c ≠ '/' ∧ c ≠ '?' ∧ c ≠ '#' ∧ c ≠ '@' ∧ c ≠ ':')
    (hpath : ∃ rest, path.data = '/' :: rest)
    (hpc : ∀ c ∈ path.data, c ≠ '?' ∧ c ≠ '#')
    (hqc : ∀ qq, q = some qq → ∀ c ∈ qq.data, c ≠ '#') :
    parseUrl s = some ⟨scheme, host, path, q, none⟩ := by
  obtain ⟨prest, hprest⟩ := hpath
  have hsch : ∀ c ∈ scheme.data, (c == ':') = false := by
    rcases hs with rfl | rfl <;> decide
  have h1 : takeUntil (· == ':') s.data =
      (scheme.data, ':' :: '/' :: '/' :: (host.data ++ (path.data ++ qdata q))) := by
    rw [hdata]
    exact takeUntil_append _ _ _ hsch (Or.inr ⟨_, _, rfl, by decide⟩)
  have hauth : ∀ c ∈ host.data, ((c == '/' || c == '?' || c == '#') : Bool) = false := by
    intro c hc
    obtain ⟨h1', h2', h3', -, -⟩ := hhost c hc
    simp [h1', h2', h3']
  have h2 : takeUntil (fun c => c == '/' || c == '?' || c == '#')
      (host.data ++ (path.data ++ qdata q)) =
      (host.data, path.data ++ qdata q) := by
    refine takeUntil_append _ _ _ hauth (Or.inr ⟨'/', prest ++ qdata q, ?_, by decide⟩)
    rw [hprest]
    rfl
  have hpc2 : ∀ c ∈ path.data, ((c == '?' || c == '#') : Bool) = false := by
    intro c hc
    obtain ⟨h1', h2'⟩ := hpc c hc
    simp [h1', h2']
  have h3 : takeUntil (fun c => c == '?' || c == '#') (path.data ++ qdata q) =
      (path.data, qdata q) := by
    refine takeUntil_append _ _ _ hpc2 ?_
    cases q with
    | none => exact Or.inl rfl
    | some qq => exact Or.inr ⟨'?', qq.data, rfl, by decide⟩
  have h4 : parseQF (qdata q) = (q, none) := by
    cases q with
    | none => rfl
    | some qq =>
      have hqq : ∀ c ∈ qq.data, (c == '#') = false := by
        intro c hc
        simp [hqc qq rfl c hc]
      have h5 : takeUntil (· == '#') (qq.data ++ []) = (qq.data, []) :=
        takeUntil_append _ _ _ hqq (Or.inl rfl)
      rw [List.append_nil] at h5
      simp [parseQF, qdata, h5]
  have hlowmap : scheme.data.map lowerChar = scheme.data := by
    rcases hs with rfl | rfl <;> decide
  have hschok : scheme.data = ['h', 't', 't', 'p'] ∨
      scheme.data = ['h', 't', 't', 'p', 's'] := by
    rcases hs with rfl | rfl
    · exact Or.inl rfl
    · exact Or.inr rfl
  have hat : (host.data.any fun c => c == '@' || c == ':') = false := by
    rw [List.any_eq_false]
    intro c hc
    obtain ⟨-, -, -, h4', h5'⟩ := hhost c hc
    simp [h4', h5']
  rw [parseUrl, h1]
  simp only [h2, hlowmap]
  rw [if_pos hschok]
  rw [if_neg (by simp [hne, hat])]
  have hslash : path.data ++ qdata q = '/' :: (prest ++ qdata q) := by
    rw [hprest]
    rfl
  rw [hslash]
  simp only [show (('/' : Char) == '/') = true from rfl, if_pos rfl]
  rw [← hslash, h3, h4]
  simp [hlow, strMk_eta]

/-- Full roundtrip: parsing a fragment-free serialization of a
well-formed URL recovers it. -/
lemma parse_serialize (u : Url) (wf : UrlWF u) (hf : u.fragment = none) :
    parseUrl (serializeUrl u) = some u := by
  have hd := serialize_data_noFrag u hf
  have h := parseUrl_assembled (serializeUrl u) u.scheme u.host u.path u.query hd
    wf.scheme_ok wf.host_ne wf.host_lower wf.host_chars wf.path_start wf.path_chars
    wf.query_chars
  rw [h]
  cases u with
  | mk scheme host path query fragment => cases hf; rfl

/-- Parsing a bare origin `scheme://host` yields the root path `/`. -/
lemma parse_bare_origin (s scheme host : String)
    (hdata : s.data = scheme.data ++ ':' :: '/' :: '/' :: host.data)
    (hs : scheme = "http" ∨ scheme = "https")
    (hne : host.data ≠ [])
    (hlow : host.data.map lowerChar = host.data)
    (hhost : ∀ c ∈ host.data, c ≠ '/' ∧ c ≠ '?' ∧ c ≠ '#' ∧ c ≠ '@' ∧ c ≠ ':') :
    parseUrl s = some ⟨scheme, host, "/", none, none⟩ := by
  have hsch : ∀ c ∈ scheme.data, (c == ':') = false := by
    rcases hs with rfl | rfl <;> decide
  have h1 : takeUntil (· == ':') s.data =
      (scheme.data, ':' :: '/' :: '/' :: host.data) := by
    rw [hdata]
    exact takeUntil_append _ _ _ hsch (Or.inr ⟨_, _, rfl, by decide⟩)
  have hauth : ∀ c ∈ host.data, ((c == '/' || c == '?' || c == '#') : Bool) = false := by
    intro c hc
    obtain ⟨h1', h2', h3', -, -⟩ := hhost c hc
    simp [h1', h2', h3']
  have h2 : takeUntil (fun c => c == '/' || c == '?' || c == '#') (host.data ++ []) =
      (host.data, []) := takeUntil_append _ _ _ hauth (Or.inl rfl)
  rw [List.append_nil] at h2
  have hlowmap : scheme.data.map lowerChar = scheme.data := by
    rcases hs with rfl | rfl <;> decide
  have hschok : scheme.data = ['h', 't', 't', 'p'] ∨
      scheme.data = ['h', 't', 't', 'p', 's'] := by
    rcases hs with rfl | rfl
    · exact Or.inl rfl
    · exact Or.inr rfl
  have hat : (host.data.any fun c => c == '@' || c == ':') = false := by
    rw [List.any_eq_false]
    intro c hc
    obtain ⟨-, -, -, h4', h5'⟩ := hhost c hc
    simp [h4', h5']
  rw [parseUrl, h1]
  simp only [h2, hlowmap]
  rw [if_pos hschok]
  rw [if_neg (by simp [hne, hat])]
  simp [hlow, strMk_eta]

/-- A query produced by `parseQF` never contains `#`. -/
lemma parseQF_query_chars (X : List Char) :
    ∀ q, (parseQF X).1 = some q → ∀ c ∈ q.data, c ≠ '#' := by
  intro q hq c hc
  unfold parseQF at hq
  split at hq
  · rename_i rest
    cases hq
    have := takeUntil_fst_false (· == '#') rest c hc
    simpa using this
  · simp at hq
  · simp at hq

/-- Everything `parseUrl` produces is well-formed. -/
lemma parse_wf {s : String} {u : Url} (h : parseUrl s = some u) : UrlWF u := by
  simp only [parseUrl] at h
  split at h
  · rename_i rest2 heq
    split at h
    · rename_i hcond
      split at h
      · exact absurd h (by simp)
      · rename_i hguard
        rw [not_or] at hguard
        obtain ⟨hne', hany'⟩ := hguard
        have hanyf : ((takeUntil (fun c => c == '/' || c == '?' || c == '#') rest2).1.any
            fun c => c == '@' || c == ':') = false := by
          cases hx : ((takeUntil (fun c => c == '/' || c == '?' || c == '#') rest2).1.any
            fun c => c == '@' || c == ':') with
          | false => rfl
          | true => exact absurd hx hany'
        have hsch : ∀ (X : List Char), X.map lowerChar = "http".data ∨
            X.map lowerChar = "https".data →
            (String.mk (X.map lowerChar) = "http" ∨ String.mk (X.map lowerChar) = "https") := by
          intro X hX
          rcases hX with hX | hX
          · exact Or.inl (by rw [hX])
          · exact Or.inr (by rw [hX])
        have hhne : (takeUntil (fun c => c == '/' || c == '?' || c == '#') rest2).1.map
            lowerChar ≠ [] := by
          simp only [ne_eq, List.map_eq_nil_iff]
          exact hne'
        have hhlow : ((takeUntil (fun c => c == '/' || c == '?' || c == '#') rest2).1.map
            lowerChar).map lowerChar =
            (takeUntil (fun c => c == '/' || c == '?' || c == '#') rest2).1.map lowerChar := by
          rw [List.map_map]
          exact List.map_congr_left fun c _ => lowerChar_idem c
        have hhchars : ∀ c ∈ (takeUntil (fun c => c == '/' || c == '?' || c == '#')
            rest2).1.map lowerChar,
            c ≠ '/' ∧ c ≠ '?' ∧ c ≠ '#' ∧ c ≠ '@' ∧ c ≠ ':' := by
          intro c hc
          obtain ⟨c₀, hc₀, rfl⟩ := List.mem_map.mp hc
          have hp3 := takeUntil_fst_false
            (fun c => c == '/' || c == '?' || c == '#') rest2 c₀ hc₀
          have hp2 := List.any_eq_false.mp hanyf c₀ hc₀
          simp only [Bool.not_eq_true, Bool.or_eq_false_iff, beq_eq_false_iff_ne,
            ne_eq] at hp3 hp2
          exact ⟨lowerChar_notSpecial c₀ '/' (by decide) hp3.1.1,
            lowerChar_notSpecial c₀ '?' (by decide) hp3.1.2,
            lowerChar_notSpecial c₀ '#' (by decide) hp3.2,
            lowerChar_notSpecial c₀ '@' (by decide) hp2.1,
            lowerChar_notSpecial c₀ ':' (by decide) hp2.2⟩
        split at h
        · cases h
          refine ⟨hsch _ hcond, hhne, hhlow, hhchars, ⟨[], rfl⟩, ?_, by simp⟩
          intro c hc
          have hc' : c = '/' := by simpa using hc
          subst hc'
          decide
        · rename_i c tail heq2
          split at h
          · rename_i hc
            cases h
            refine ⟨hsch _ hcond, hhne, hhlow, hhchars, ?_, ?_, ?_⟩
            · have hcs : c = '/' := by simpa using hc
              subst hcs
              have hcf : ((fun c => c == '?' || c == '#') '/') = false := by decide
              rw [heq2, takeUntil_cons_false _ _ _ hcf]
              exact ⟨_, rfl⟩
            · intro d hd
              have := takeUntil_fst_false (fun c => c == '?' || c == '#') _ d hd
              simpa [not_or] using this
            · intro q hq
              exact parseQF_query_chars _ q hq
          · cases h
            refine ⟨hsch _ hcond, hhne, hhlow, hhchars, ⟨[], rfl⟩, ?_, ?_⟩
            · intro c hc
              have hc' : c = '/' := by simpa using hc
              subst hc'
              decide
            · intro q hq
              exact parseQF_query_chars _ q hq
    · exact absurd h (by simp)
  · exact absurd h (by simp)

/-- Strings with equal character data are equal. -/
lemma strExt {a b : String} (h : a.data = b.data) : a = b := by
  cases a
  cases b
  exact congrArg String.mk h

/-- C8 (counterexample). `http://example.com/` parses to the URL with
path exactly `/`, and normalization *does* trim the trailing slash: the
canonical form is `http://example.com`, which does not end in `/` —
refuting the claim that the trim skips the bare-root path. -/
theorem root_slash_trimmed_counterexample :
    parseUrl "http://example.com/" =
      some ⟨"http", "example.com", "/", none, none⟩ ∧
    normalize_url ⟨"http", "example.com", "/", none, none⟩ = "http://example.com" ∧
    lastIsSlash "http://example.com" = false := by decide

/-- C8 (amended). For every URL whose path is exactly `/` and whose query
is empty, normalization trims the trailing slash unconditionally: the
canonical form is the bare origin `scheme://host`. -/
theorem normalize_rootSlash_trimmed (u : Url) (hq : u.query = none)
    (hp : u.path = "/") : normalize_url u = u.scheme ++ "://" ++ u.host := by
  obtain ⟨sc, ho, pa, qu, fr⟩ := u
  cases hq
  cases hp
  have hdata : (serializeUrl ⟨sc, ho, "/", none, none⟩).data =
      (sc.data ++ ':' :: '/' :: '/' :: ho.data) ++ ['/'] := by
    rw [serialize_data_noFrag _ rfl]
    simp [qdata, List.append_assoc]
  have hls : lastIsSlash (serializeUrl ⟨sc, ho, "/", none, none⟩) = true := by
    have h1 : (serializeUrl ⟨sc, ho, "/", none, none⟩).data.getLast? = some '/' := by
      rw [hdata]
      exact List.getLast?_concat _
    simp [lastIsSlash, h1]
  have hpop : strPop (serializeUrl ⟨sc, ho, "/", none, none⟩) = sc ++ "://" ++ ho := by
    apply strExt
    show (serializeUrl ⟨sc, ho, "/", none, none⟩).data.dropLast = _
    rw [hdata, List.dropLast_concat]
    simp [strData_append, sepData, List.append_assoc]
  show (if lastIsSlash (serializeUrl ⟨sc, ho, "/", none, none⟩) then
    strPop (serializeUrl ⟨sc, ho, "/", none, none⟩)
    else serializeUrl ⟨sc, ho, "/", none, none⟩) = sc ++ "://" ++ ho
  rw [hls]
  simpa using hpop

/-- Witness for `normalize_rootSlash_trimmed` at a concrete URL. -/
theorem normalize_rootSlash_trimmed_witness :
    normalize_url ⟨"http", "example.org", "/", none, none⟩ =
      "http" ++ "://" ++ "example.org" :=
  normalize_rootSlash_trimmed ⟨"http", "example.org", "/", none, none⟩ rfl rfl

/-- C9 (counterexample). `http://t//` normalizes to `http://t/`, but
re-parsing and re-normalizing that output trims again, yielding
`http://t` — so normalization is *not* a fixed point on its own outputs
when the output still ends in `/`. -/
theorem normalize_not_idempotent_counterexample :
    renormalize "http://t//" = some "http://t/" ∧
    renormalize "http://t/" = some "http://t" ∧
    ("http://t" : String) ≠ "http://t/" := by decide

/-- C9 (amended). Normalization is a fixed point on outputs that do not
end in `/`: for any parseable URL `u`, if the canonical form of `u` does
not end with a slash, re-parsing and re-normalizing it returns it
unchanged. (Outputs that still end in `/` — from paths with repeated
trailing slashes — lose one more character per pass, as the
counterexample shows.) -/
theorem normalize_url_fixed_point (s₀ : String) (u : Url)
    (hp : parseUrl s₀ = some u)
    (hns : lastIsSlash (normalize_url u) = false) :
    renormalize (normalize_url u) = some (normalize_url u) := by
  have wf := parse_wf hp
  obtain ⟨sc, ho, pa, qu, fr⟩ := u
  have hsch : sc = "http" ∨ sc = "https" := wf.scheme_ok
  have hhne : ho.data ≠ [] := wf.host_ne
  have hhlow : ho.data.map lowerChar = ho.data := wf.host_lower
  have hhch : ∀ c ∈ ho.data, c ≠ '/' ∧ c ≠ '?' ∧ c ≠ '#' ∧ c ≠ '@' ∧ c ≠ ':' :=
    wf.host_chars
  have hpst : ∃ rest, pa.data = '/' :: rest := wf.path_start
  have hpch : ∀ c ∈ pa.data, c ≠ '?' ∧ c ≠ '#' := wf.path_chars
  have hqch : ∀ q, qu = some q → ∀ c ∈ q.data, c ≠ '#' := wf.query_chars
  have hnu : normalize_url ⟨sc, ho, pa, qu, fr⟩ =
      (if lastIsSlash (serializeUrl ⟨sc, ho, pa, qu, none⟩) then
        strPop (serializeUrl ⟨sc, ho, pa, qu, none⟩)
      else serializeUrl ⟨sc, ho, pa, qu, none⟩) := rfl
  by_cases hls : lastIsSlash (serializeUrl ⟨sc, ho, pa, qu, none⟩) = true
  · -- the serialization ends in '/', so one character is popped
    have hr : normalize_url ⟨sc, ho, pa, qu, fr⟩ =
        strPop (serializeUrl ⟨sc, ho, pa, qu, none⟩) := by
      rw [hnu, if_pos hls]
    rw [hr] at hns ⊢
    have hsd := serialize_data_noFrag ⟨sc, ho, pa, qu, none⟩ rfl
    have hsd' : (serializeUrl ⟨sc, ho, pa, qu, none⟩).data =
        sc.data ++ ([':', '/', '/'] ++ (ho.data ++ (pa.data ++ qdata qu))) := hsd
    have hlast : (serializeUrl ⟨sc, ho, pa, qu, none⟩).data.getLast? = some '/' := by
      simpa [lastIsSlash] using hls
    cases qu with
    | some q =>
      have hlast2 : ('?' :: q.data).getLast? = some '/' := by
        have h0 := hlast
        rw [hsd'] at h0
        rw [List.getLast?_append_of_ne_nil _ (by simp [qdata])] at h0
        rw [List.getLast?_append_of_ne_nil _ (by simp [qdata])] at h0
        rw [List.getLast?_append_of_ne_nil _ (by simp [qdata])] at h0
        rw [List.getLast?_append_of_ne_nil _ (by simp [qdata])] at h0
        exact h0
      have hqne : q.data ≠ [] := by
        intro h0
        rw [h0] at hlast2
        simp at hlast2
      have hql : q.data.getLast? = some '/' := by
        have h1 := hlast2
        rw [show ('?' :: q.data) = ['?'] ++ q.data from rfl,
          List.getLast?_append_of_ne_nil _ hqne] at h1
        exact h1
      have hqsplit : q.data.dropLast ++ ['/'] = q.data :=
        List.dropLast_append_getLast? '/' (Option.mem_def.mpr hql)
      have hrdata : (strPop (serializeUrl ⟨sc, ho, pa, some q, none⟩)).data =
          sc.data ++ ':' :: '/' :: '/' ::
            (ho.data ++ (pa.data ++ qdata (some (String.mk q.data.dropLast)))) := by
        show (serializeUrl ⟨sc, ho, pa, some q, none⟩).data.dropLast = _
        have e : (serializeUrl ⟨sc, ho, pa, some q, none⟩).data =
            (sc.data ++ ':' :: '/' :: '/' ::
              (ho.data ++ (pa.data ++ ('?' :: q.data.dropLast)))) ++ ['/'] := by
          rw [hsd]
          rw [show qdata (some q) = '?' :: q.data from rfl, ← hqsplit]
          simp [List.append_assoc]
        rw [e, List.dropLast_concat]
        rfl
      have hpr : parseUrl (strPop (serializeUrl ⟨sc, ho, pa, some q, none⟩)) =
          some ⟨sc, ho, pa, some (String.mk q.data.dropLast), none⟩ := by
        refine parseUrl_assembled _ _ _ _ _ hrdata hsch hhne hhlow hhch hpst hpch ?_
        intro qq hqq c hc
        cases hqq
        exact hqch q rfl c ((List.dropLast_sublist _).subset hc)
      have hser2 : serializeUrl ⟨sc, ho, pa, some (String.mk q.data.dropLast), none⟩ =
          strPop (serializeUrl ⟨sc, ho, pa, some q, none⟩) := by
        apply strExt
        rw [serialize_data_noFrag _ rfl, hrdata]
      rw [renormalize, hpr]
      have hnorm : normalize_url ⟨sc, ho, pa, some (String.mk q.data.dropLast), none⟩ =
          strPop (serializeUrl ⟨sc, ho, pa, some q, none⟩) := by
        show (if lastIsSlash
            (serializeUrl ⟨sc, ho, pa, some (String.mk q.data.dropLast), none⟩) then
          strPop (serializeUrl ⟨sc, ho, pa, some (String.mk q.data.dropLast), none⟩)
          else serializeUrl ⟨sc, ho, pa, some (String.mk q.data.dropLast), none⟩) = _
        rw [hser2, hns]
        simp
      simp [hnorm]
    | none =>
      obtain ⟨prest, hprest⟩ := hpst
      have hlast2 : pa.data.getLast? = some '/' := by
        have h0 := hlast
        rw [hsd'] at h0
        rw [List.getLast?_append_of_ne_nil _ (by simp [qdata, hprest])] at h0
        rw [List.getLast?_append_of_ne_nil _ (by simp [qdata, hprest])] at h0
        rw [List.getLast?_append_of_ne_nil _ (by simp [qdata, hprest])] at h0
        rw [qdata, List.append_nil] at h0
        exact h0
      have hpsplit : pa.data.dropLast ++ ['/'] = pa.data :=
        List.dropLast_append_getLast? '/' (Option.mem_def.mpr hlast2)
      by_cases hdl : pa.data.dropLast = []
      · -- path is exactly "/": the pop yields the bare origin
        have hpa : pa = "/" := by
          apply strExt
          show pa.data = ['/']
          rw [← hpsplit, hdl]
          rfl
        subst hpa
        have hrdata : (strPop (serializeUrl ⟨sc, ho, "/", none, none⟩)).data =
            sc.data ++ ':' :: '/' :: '/' :: ho.data := by
          show (serializeUrl ⟨sc, ho, "/", none, none⟩).data.dropLast = _
          have e : (serializeUrl ⟨sc, ho, "/", none, none⟩).data =
              (sc.data ++ ':' :: '/' :: '/' :: ho.data) ++ ['/'] := by
            rw [hsd]
            simp [qdata, List.append_assoc]
          rw [e, List.dropLast_concat]
        have hpr : parseUrl (strPop (serializeUrl ⟨sc, ho, "/", none, none⟩)) =
            some ⟨sc, ho, "/", none, none⟩ :=
          parse_bare_origin _ sc ho hrdata hsch hhne hhlow hhch
        rw [renormalize, hpr]
        have hnorm : normalize_url ⟨sc, ho, "/", none, none⟩ =
            strPop (serializeUrl ⟨sc, ho, "/", none, none⟩) := by
          show (if lastIsSlash (serializeUrl ⟨sc, ho, "/", none, none⟩) then
            strPop (serializeUrl ⟨sc, ho, "/", none, none⟩)
            else serializeUrl ⟨sc, ho, "/", none, none⟩) = _
          rw [if_pos hls]
        simp [hnorm]
      · -- path keeps at least one leading segment after the pop
        obtain ⟨d, t, hdt⟩ : ∃ d t, pa.data.dropLast = d :: t := by
          cases hx : pa.data.dropLast with
          | nil => exact absurd hx hdl
          | cons d t => exact ⟨d, t, rfl⟩
        have hd : d = '/' := by
          have h1 : pa.data = d :: (t ++ ['/']) := by
            rw [← hpsplit, hdt]
            rfl
          rw [hprest] at h1
          injection h1 with h1a h1b
          exact h1a.symm
        subst hd
        have hrdata : (strPop (serializeUrl ⟨sc, ho, pa, none, none⟩)).data =
            sc.data ++ ':' :: '/' :: '/' ::
              (ho.data ++ ((String.mk pa.data.dropLast).data ++ qdata none)) := by
          show (serializeUrl ⟨sc, ho, pa, none, none⟩).data.dropLast = _
          have e : (serializeUrl ⟨sc, ho, pa, none, none⟩).data =
              (sc.data ++ ':' :: '/' :: '/' :: (ho.data ++ pa.data.dropLast)) ++ ['/'] := by
            rw [hsd]
            rw [show pa.data ++ qdata none = pa.data from List.append_nil _]
            rw [← hpsplit]
            simp [List.append_assoc]
          rw [e, List.dropLast_concat]
          simp [qdata]
        have hpr : parseUrl (strPop (serializeUrl ⟨sc, ho, pa, none, none⟩)) =
            some ⟨sc, ho, String.mk pa.data.dropLast, none, none⟩ := by
          refine parseUrl_assembled _ _ _ _ _ hrdata hsch hhne hhlow hhch ⟨t, hdt⟩ ?_ ?_
          · intro c hc
            exact hpch c ((List.dropLast_sublist _).subset hc)
          · intro qq hqq
            exact absurd hqq (by simp)
        have hser2 : serializeUrl ⟨sc, ho, String.mk pa.data.dropLast, none, none⟩ =
            strPop (serializeUrl ⟨sc, ho, pa, none, none⟩) := by
          apply strExt
          rw [serialize_data_noFrag _ rfl, hrdata]
        rw [renormalize, hpr]
        have hnorm : normalize_url ⟨sc, ho, String.mk pa.data.dropLast, none, none⟩ =
            strPop (serializeUrl ⟨sc, ho, pa, none, none⟩) := by
          show (if lastIsSlash (serializeUrl ⟨sc, ho, String.mk pa.data.dropLast, none,
              none⟩) then
            strPop (serializeUrl ⟨sc, ho, String.mk pa.data.dropLast, none, none⟩)
            else serializeUrl ⟨sc, ho, String.mk pa.data.dropLast, none, none⟩) = _
          rw [hser2, hns]
          simp
        simp [hnorm]
  · -- no trailing slash: the serialization itself is the canonical form
    have hlsf : lastIsSlash (serializeUrl ⟨sc, ho, pa, qu, none⟩) = false := by
      simpa using hls
    have wf' : UrlWF ⟨sc, ho, pa, qu, none⟩ :=
      ⟨hsch, hhne, hhlow, hhch, hpst, hpch, hqch⟩
    have hr : normalize_url ⟨sc, ho, pa, qu, fr⟩ = serializeUrl ⟨sc, ho, pa, qu, none⟩ := by
      rw [hnu, hlsf]
      simp
    rw [hr]
    rw [renormalize, parse_serialize _ wf' rfl]
    have hnorm : normalize_url ⟨sc, ho, pa, qu, none⟩ =
        serializeUrl ⟨sc, ho, pa, qu, none⟩ := by
      show (if lastIsSlash (serializeUrl ⟨sc, ho, pa, qu, none⟩) then
        strPop (serializeUrl ⟨sc, ho, pa, qu, none⟩)
        else serializeUrl ⟨sc, ho, pa, qu, none⟩) = _
      rw [hlsf]
      simp
    simp [hnorm]

/-- Witness for `normalize_url_fixed_point` at a concrete URL. -/
theorem normalize_url_fixed_point_witness :
    renormalize (normalize_url ⟨"http", "t", "/a", none, none⟩) =
      some (normalize_url ⟨"http", "t", "/a", none, none⟩) :=
  normalize_url_fixed_point "http://t/a" ⟨"http", "t", "/a", none, none⟩
    (by decide) (by decide)

/-- C5 (code bug). The robots cache is keyed by the origin
`scheme://host` (src/robots.rs:37-41), and a crawl-delay *is* cached for
the origin — but `process_page` looks the delay up under the bare host
returned by `extract_domain` (src/crawler.rs:385-388), so the lookup
always misses and the politeness sleep is the configured delay alone,
never `max(robots_delay, configured_delay)`. -/
theorem politeness_sleep_ignores_robots_delay :
    originOf "http://t/x" = some "http://t" ∧
    get_crawl_delay [("http://t", ⟨[], [], some 5⟩)] "http://t"
      "RustCrawler/1.0" = some 5 ∧
    extract_domain "http://t/x" = some "t" ∧
    get_crawl_delay [("http://t", ⟨[], [], some 5⟩)] "t" "RustCrawler/1.0" = none ∧
    sleep_duration 1 [("http://t", ⟨[], [], some 5⟩)] "RustCrawler/1.0" "http://t/x" =
      some 1 ∧
    (1 : ℚ) < 5 := by decide

/-- C7 (counterexample). With allow `["/ab"]` and disallows
`["/a", "/ab"]`, the path `/ab` is *allowed* by the code (the first
matching disallow is `/a`, and the strictly longer allow `/ab` overrides
it) — yet the claim's order-free condition brands it forbidden: the
disallow `/ab` matches and no allow is strictly longer than it. -/
theorem robots_longest_match_counterexample :
    check_path_allowed ⟨["/ab"], ["/a", "/ab"], none⟩ "/ab" = true ∧
    (∃ d ∈ (["/a", "/ab"] : List String), strStartsWith "/ab" d = true ∧
      ∀ a ∈ (["/ab"] : List String), strStartsWith "/ab" a = true →
        byteLen a ≤ byteLen d) := by decide

/-- C7 (amended). A path is forbidden iff the *first* disallow prefix of
the record (in record order) that prefixes the path has no strictly
byte-longer allow prefix of the path; disallow patterns after the first
match are never consulted. -/
theorem check_path_allowed_first_match (rd : RobotsData) (path : String) :
    check_path_allowed rd path = false ↔
      ∃ pre d post, rd.disallow_patterns = pre ++ d :: post ∧
        strStartsWith path d = true ∧
        (∀ d' ∈ pre, strStartsWith path d' = false) ∧
        ∀ a ∈ rd.allow_patterns, strStartsWith path a = true →
          byteLen a ≤ byteLen d := by
  have aux : ∀ l : List String,
      (((match l.find? (fun pat => strStartsWith path pat) with
        | some pat => rd.allow_patterns.any fun ap =>
            strStartsWith path ap && Nat.blt (byteLen pat) (byteLen ap)
        | none => true) : Bool) = false) ↔
      ∃ pre d post, l = pre ++ d :: post ∧ strStartsWith path d = true ∧
        (∀ d' ∈ pre, strStartsWith path d' = false) ∧
        ∀ a ∈ rd.allow_patterns, strStartsWith path a = true →
          byteLen a ≤ byteLen d := by
    intro l
    induction l with
    | nil =>
      simp
    | cons x xs ih =>
      by_cases hx : strStartsWith path x = true
      · rw [List.find?_cons_of_pos _ hx]
        show (rd.allow_patterns.any fun ap =>
            strStartsWith path ap && Nat.blt (byteLen x) (byteLen ap)) = false ↔ _
        constructor
        · intro h
          refine ⟨[], x, xs, rfl, hx, by simp, ?_⟩
          intro a ha hsa
          have h2 := List.any_eq_false.mp h a ha
          rw [Bool.not_eq_true, Bool.and_eq_false_iff] at h2
          rcases h2 with h1 | h1
          · exact absurd hsa (by simp [h1])
          · have h3 : ¬ byteLen x < byteLen a := by
              rw [← Nat.blt_eq]
              simp [h1]
            omega
        · rintro ⟨pre, d, post, hdec, hd, hpre, hall⟩
          cases pre with
          | nil =>
            cases hdec
            rw [List.any_eq_false]
            intro a ha
            rw [Bool.not_eq_true, Bool.and_eq_false_iff]
            by_cases hsa : strStartsWith path a = true
            · refine Or.inr ?_
              have h4 := hall a ha hsa
              rw [← Bool.not_eq_true, Nat.blt_eq]
              omega
            · exact Or.inl (by simpa using hsa)
          | cons p pre' =>
            injection hdec with h1 h2
            subst h1
            exact absurd hx (by simp [hpre x (List.mem_cons_self _ _)])
      · have hx' : strStartsWith path x = false := by simpa using hx
        rw [List.find?_cons_of_neg _ (by simp [hx'])]
        rw [ih]
        constructor
        · rintro ⟨pre, d, post, hdec, hd, hpre, hall⟩
          refine ⟨x :: pre, d, post, by rw [hdec]; rfl, hd, ?_, hall⟩
          intro d' hd'
          rcases List.mem_cons.mp hd' with rfl | hd'
          · exact hx'
          · exact hpre d' hd'
        · rintro ⟨pre, d, post, hdec, hd, hpre, hall⟩
          cases pre with
          | nil =>
            cases hdec
            exact absurd hd (by simp [hx'])
          | cons p pre' =>
            injection hdec with h1 h2
            subst h1
            exact ⟨pre', d, post, h2, hd, fun d' hd' =>
              hpre d' (List.mem_cons_of_mem _ hd'), hall⟩
  exact aux rd.disallow_patterns

lemma lastOr_cons {α : Type} (d : Option α) (x : α) (xs : List α) :
    lastOr d (x :: xs) = lastOr (some x) xs := by
  cases hxs : xs with
  | nil => rfl
  | cons y ys =>
    show (match (x :: y :: ys).getLast? with
      | some z => some z
      | none => d) = _
    rw [List.getLast?_cons_cons]
    rfl

lemma robotsLineStep_of_parsedLine_none (ua : String) (acc : RAcc) (line : String)
    (h : parsedLine line = none) : robotsLineStep ua acc line = acc := by
  simp only [parsedLine] at h
  simp only [robotsLineStep]
  by_cases hc : (strTrim line).data = [] ∨ (strTrim line).data.head? = some '#'
  · rw [if_pos hc]
  · rw [if_neg hc] at h
    rw [if_neg hc]
    cases hsp : splitOnceColon (strTrim line) with
    | none => rfl
    | some kv => rw [hsp] at h; simp at h

lemma robotsLineStep_of_parsedLine_some (ua : String) (acc : RAcc) (line : String)
    (k v : String) (h : parsedLine line = some (k, v)) :
    robotsLineStep ua acc line =
      if k = "user-agent" then { acc with agent := v }
      else if k = "allow" then
        (if acc.agent = "*" ∨ acc.agent = ua then
          { acc with allow := acc.allow ++ [v] } else acc)
      else if k = "disallow" then
        (if (acc.agent = "*" ∨ acc.agent = ua) ∧ v ≠ "" then
          { acc with disallow := acc.disallow ++ [v] } else acc)
      else if k = "crawl-delay" then
        (if acc.agent = "*" ∨ acc.agent = ua then
          (match parseF64 v with
            | some d => { acc with delay := some d }
            | none => acc) else acc)
      else acc := by
  simp only [parsedLine] at h
  simp only [robotsLineStep]
  by_cases hc : (strTrim line).data = [] ∨ (strTrim line).data.head? = some '#'
  · rw [if_pos hc] at h
    simp at h
  · rw [if_neg hc] at h
    rw [if_neg hc]
    cases hsp : splitOnceColon (strTrim line) with
    | none => rw [hsp] at h; simp at h
    | some kv =>
      rw [hsp] at h
      simp only [Option.map_some', Option.some.injEq, Prod.mk.injEq] at h
      obtain ⟨hk, hv⟩ := h
      obtain ⟨k1, v1⟩ := kv
      simp only at hk hv ⊢
      rw [hk, hv]

lemma annotDirs_cons_none (cur line : String) (rest : List String)
    (h : parsedLine line = none) :
    annotDirs cur (line :: rest) = annotDirs cur rest := by
  conv_lhs => rw [annotDirs]
  rw [h]

lemma annotDirs_cons_ua (cur line : String) (rest : List String) (v : String)
    (h : parsedLine line = some ("user-agent", v)) :
    annotDirs cur (line :: rest) = annotDirs v rest := by
  conv_lhs => rw [annotDirs]
  rw [h]
  simp

lemma annotDirs_cons_dir (cur line : String) (rest : List String) (k v : String)
    (h : parsedLine line = some (k, v)) (hk : k ≠ "user-agent") :
    annotDirs cur (line :: rest) = (cur, k, v) :: annotDirs cur rest := by
  conv_lhs => rw [annotDirs]
  rw [h]
  simp [hk]

lemma matchedOf_cons_pos (ua cur k v : String)
    (ads : List (String × String × String)) (h : cur = "*" ∨ cur = ua) :
    matchedOf ua ((cur, k, v) :: ads) = (k, v) :: matchedOf ua ads := by
  have hb : ((cur == "*" || cur == ua) : Bool) = true := by
    rcases h with rfl | rfl <;> simp
  simp [matchedOf, List.filter_cons, hb]

lemma matchedOf_cons_neg (ua cur k v : String)
    (ads : List (String × String × String)) (h : ¬(cur = "*" ∨ cur = ua)) :
    matchedOf ua ((cur, k, v) :: ads) = matchedOf ua ads := by
  rw [not_or] at h
  have hb : ((cur == "*" || cur == ua) : Bool) = false := by
    simp [h.1, h.2]
  simp [matchedOf, List.filter_cons, hb]

lemma lastOr_none {α : Type} (l : List α) : lastOr none l = l.getLast? := by
  cases h : l.getLast? <;> simp [lastOr, h]

/-- The robots fold, characterized: starting from any accumulator, the
fold appends the allow/(non-empty) disallow values of *every* directive
whose current agent token matches (`*` or the exact user agent), and the
delay is the last parseable matching crawl-delay (or the accumulator's). -/
lemma robots_fold_char (ua : String) : ∀ (lines : List String) (acc : RAcc),
    ((lines.foldl (robotsLineStep ua) acc).allow =
      acc.allow ++ dirAllow (matchedOf ua (annotDirs acc.agent lines))) ∧
    ((lines.foldl (robotsLineStep ua) acc).disallow =
      acc.disallow ++ dirDisallow (matchedOf ua (annotDirs acc.agent lines))) ∧
    ((lines.foldl (robotsLineStep ua) acc).delay =
      lastOr acc.delay (dirDelays (matchedOf ua (annotDirs acc.agent lines)))) := by
  intro lines
  induction lines with
  | nil =>
    intro acc
    simp [annotDirs, matchedOf, dirAllow, dirDisallow, dirDelays, lastOr]
  | cons line rest ih =>
    intro acc
    rw [List.foldl_cons]
    cases hpl : parsedLine line with
    | none =>
      rw [robotsLineStep_of_parsedLine_none ua acc line hpl,
        annotDirs_cons_none acc.agent line rest hpl]
      exact ih acc
    | some kv =>
      obtain ⟨k, v⟩ := kv
      rw [robotsLineStep_of_parsedLine_some ua acc line k v hpl]
      by_cases hk1 : k = "user-agent"
      · subst hk1
        rw [if_pos rfl, annotDirs_cons_ua acc.agent line rest v hpl]
        exact ih { acc with agent := v }
      · rw [if_neg hk1, annotDirs_cons_dir acc.agent line rest k v hpl hk1]
        by_cases hag : acc.agent = "*" ∨ acc.agent = ua
        · rw [matchedOf_cons_pos ua acc.agent k v _ hag]
          by_cases hk2 : k = "allow"
          · subst hk2
            rw [if_pos rfl, if_pos hag]
            obtain ⟨iha, ihd, ihl⟩ := ih { acc with allow := acc.allow ++ [v] }
            refine ⟨?_, ?_, ?_⟩
            · rw [iha]
              simp [dirAllow, List.filterMap_cons, List.append_assoc]
            · rw [ihd]
              simp [dirDisallow, List.filterMap_cons]
            · rw [ihl]
              simp [dirDelays, List.filterMap_cons]
          · rw [if_neg hk2]
            by_cases hk3 : k = "disallow"
            · subst hk3
              rw [if_pos rfl]
              by_cases hv : v ≠ ""
              · rw [if_pos ⟨hag, hv⟩]
                obtain ⟨iha, ihd, ihl⟩ := ih { acc with disallow := acc.disallow ++ [v] }
                refine ⟨?_, ?_, ?_⟩
                · rw [iha]
                  simp [dirAllow, List.filterMap_cons]
                · rw [ihd]
                  simp [dirDisallow, List.filterMap_cons, hv, List.append_assoc]
                · rw [ihl]
                  simp [dirDelays, List.filterMap_cons]
              · rw [if_neg fun hh => hv hh.2]
                rw [not_ne_iff] at hv
                obtain ⟨iha, ihd, ihl⟩ := ih acc
                refine ⟨?_, ?_, ?_⟩
                · rw [iha]
                  simp [dirAllow, List.filterMap_cons]
                · rw [ihd]
                  simp [dirDisallow, List.filterMap_cons, hv]
                · rw [ihl]
                  simp [dirDelays, List.filterMap_cons]
            · rw [if_neg hk3]
              by_cases hk4 : k = "crawl-delay"
              · subst hk4
                rw [if_pos rfl, if_pos hag]
                cases hpf : parseF64 v with
                | some dq =>
                  obtain ⟨iha, ihd, ihl⟩ := ih { acc with delay := some dq }
                  refine ⟨?_, ?_, ?_⟩
                  · rw [iha]
                    simp [dirAllow, List.filterMap_cons]
                  · rw [ihd]
                    simp [dirDisallow, List.filterMap_cons]
                  · rw [ihl]
                    simp [dirDelays, List.filterMap_cons, hpf, lastOr_cons]
                | none =>
                  obtain ⟨iha, ihd, ihl⟩ := ih acc
                  refine ⟨?_, ?_, ?_⟩
                  · rw [iha]
                    simp [dirAllow, List.filterMap_cons]
                  · rw [ihd]
                    simp [dirDisallow, List.filterMap_cons]
                  · rw [ihl]
                    simp [dirDelays, List.filterMap_cons, hpf]
              · rw [if_neg hk4]
                obtain ⟨iha, ihd, ihl⟩ := ih acc
                refine ⟨?_, ?_, ?_⟩
                · rw [iha]
                  simp [dirAllow, List.filterMap_cons, hk2]
                · rw [ihd]
                  simp [dirDisallow, List.filterMap_cons, hk3]
                · rw [ihl]
                  simp [dirDelays, List.filterMap_cons, hk4]
        · rw [matchedOf_cons_neg ua acc.agent k v _ hag]
          have hstep : (if k = "allow" then
              (if acc.agent = "*" ∨ acc.agent = ua then
                { acc with allow := acc.allow ++ [v] } else acc)
            else if k = "disallow" then
              (if (acc.agent = "*" ∨ acc.agent = ua) ∧ v ≠ "" then
                { acc with disallow := acc.disallow ++ [v] } else acc)
            else if k = "crawl-delay" then
              (if acc.agent = "*" ∨ acc.agent = ua then
                (match parseF64 v with
                  | some d => { acc with delay := some d }
                  | none => acc) else acc)
            else acc) = acc := by
            by_cases hk2 : k = "allow"
            · subst hk2
              rw [if_pos rfl, if_neg hag]
            · rw [if_neg hk2]
              by_cases hk3 : k = "disallow"
              · subst hk3
                rw [if_pos rfl, if_neg fun hh => hag hh.1]
              · rw [if_neg hk3]
                by_cases hk4 : k = "crawl-delay"
                · subst hk4
                  rw [if_pos rfl, if_neg hag]
                · rw [if_neg hk4]
          rw [hstep]
          exact ih acc

/-- C6 (amended). Parsing merges *all* matching groups: the record's
allow (resp. non-empty disallow) patterns are the in-order concatenation
of the `Allow:` (resp. `Disallow:`) values appearing under *any* agent
token equal to `*` or to the user agent, and the crawl-delay is the last
parseable `Crawl-delay:` value under any matching token. No single group
is selected. -/
theorem robots_merges_all_matching_groups (content ua : String) :
    parseRobotsTxt content ua =
      ⟨dirAllow (matchedOf ua (annotDirs "" (rustLines content))),
       dirDisallow (matchedOf ua (annotDirs "" (rustLines content))),
       (dirDelays (matchedOf ua (annotDirs "" (rustLines content)))).getLast?⟩ := by
  obtain ⟨ha, hd, hl⟩ := robots_fold_char ua (rustLines content) ⟨"", [], [], none⟩
  show (⟨((rustLines content).foldl (robotsLineStep ua) ⟨"", [], [], none⟩).allow,
    ((rustLines content).foldl (robotsLineStep ua) ⟨"", [], [], none⟩).disallow,
    ((rustLines content).foldl (robotsLineStep ua) ⟨"", [], [], none⟩).delay⟩ : RobotsData) = _
  rw [ha, hd, hl]
  simp [lastOr_none]

/-- C6 (counterexample). With a `*` group disallowing `/x` and a
`ua`-specific group disallowing `/y`, parsing for agent `ua` yields
*both* patterns `["/x", "/y"]` — not the claimed single selected group
(which would yield `["/y"]` only). -/
theorem robots_single_group_counterexample :
    (parseRobotsTxt "User-agent: *\nDisallow: /x\nUser-agent: ua\nDisallow: /y"
      "ua").disallow_patterns = ["/x", "/y"] ∧
    (selectedGroupRecord "User-agent: *\nDisallow: /x\nUser-agent: ua\nDisallow: /y"
      "ua").disallow_patterns = ["/y"] ∧
    parseRobotsTxt "User-agent: *\nDisallow: /x\nUser-agent: ua\nDisallow: /y" "ua" ≠
      selectedGroupRecord "User-agent: *\nDisallow: /x\nUser-agent: ua\nDisallow: /y"
        "ua" := by decide
